import Mathlib

/-!
Verification of the core conversion logic of `ticktick_to_todoist`
(`src/ticktick_to_todoist/converter.py`), shallowly embedded in Lean.

Strings are modelled as `List Char` internally (`String.data`); Python list
indexing `t[i]` on record rows is modelled with `List.getD` / `List.set`.
-/

namespace TickTickToTodoist

/-- Characters treated as whitespace by Python's `str.strip()` / `str.split()`
(ASCII whitespace plus the Unicode space characters). -/
def pyIsSpace (c : Char) : Bool :=
  c ∈ [' ', '\t', '\n', '\r', '\x0b', '\x0c',
       '\u0085', ' ', ' ',
       ' ', ' ', ' ', ' ', ' ', ' ',
       ' ', ' ', ' ', ' ', ' ',
       ' ', ' ', ' ', ' ', '　']

/-- Drop trailing characters satisfying `p` (helper for Python `str.strip`). -/
def dropTrailing (p : Char → Bool) (l : List Char) : List Char :=
  (l.reverse.dropWhile p).reverse

/-- Python `text.strip()`: remove leading and trailing whitespace. -/
def pyStrip (l : List Char) : List Char :=
  dropTrailing pyIsSpace (l.dropWhile pyIsSpace)

/-- The mangled dictionary key produced by converter.py lines 43-44.  The
source's smart-quote characters were replaced by ASCII quotes, so line 43's
`'''` opens a triple-quoted string that runs to the `'''` at the start of
line 44; the resulting key is the 46-character string
`: "'",` + 8 spaces + `# Smart apostrophes` + newline + 12 spaces. -/
def brokenKey : List Char :=
  [':', ' ', '"', '\'', '"', ',', ' ', ' ', ' ', ' ', ' ', ' ', ' ', ' ',
   '#', ' ', 'S', 'm', 'a', 'r', 't', ' ', 'a', 'p', 'o', 's', 't', 'r',
   'o', 'p', 'h', 'e', 's', '\n',
   ' ', ' ', ' ', ' ', ' ', ' ', ' ', ' ', ' ', ' ', ' ', ' ']

/-- The `replacements` dict of `clean_text` (converter.py lines 40-54) as the
mangled source actually defines it: the smart-quote lines collapsed into a
single identity entry `'"' -> '"'` (the duplicate literal entry overwrites it
with the same value) and one garbage multi-character key ending in `'` (from
the broken `'''` literal); then the genuine en/em dash, ellipsis, zero-width,
BOM, carriage-return and tab entries, in dict insertion order.  Typographic
quotes are NOT replaced by this table — the program drops them later in the
character filter. -/
def replPairs : List (List Char × List Char) :=
  [(['"'], ['"']),
   (brokenKey, ['\'']),
   (['–'], ['-']), (['—'], ['-']),
   (['…'], ['.', '.', '.']),
   (['​'], []), (['‌'], []), (['‍'], []), (['﻿'], []),
   (['\r'], ['\n']), (['\t'], [' '])]

/-- Fuel-indexed Python `text.replace(old, new)`: scan left to right; where
`old` is a prefix, emit `new` and skip past it (non-overlapping), else keep
one character.  For non-empty `old` every step consumes at least one input
character, so `pyReplace` supplying the input length as fuel computes exactly
Python's `str.replace`. -/
def pyReplaceFuel (old new : List Char) : Nat → List Char → List Char
  | 0, l => l
  | _ + 1, [] => []
  | fuel + 1, c :: rest =>
      if old.isPrefixOf (c :: rest) then
        new ++ pyReplaceFuel old new fuel ((c :: rest).drop old.length)
      else c :: pyReplaceFuel old new fuel rest

/-- Python `l.replace(old, new)`. -/
def pyReplace (l : List Char) (old new : List Char) : List Char :=
  pyReplaceFuel old new l.length l

/-- The sequential `for old, new in replacements.items(): text = text.replace(old, new)`
loop of `clean_text`. -/
def replaceAll (l : List Char) : List Char :=
  replPairs.foldl (fun s p => pyReplace s p.1 p.2) l

/-- The character filter of `clean_text` (line 63): keep printable ASCII
(ordinal 32-126), newline, and the Nordic letters. -/
def allowedChar (c : Char) : Bool :=
  (32 ≤ c.toNat && c.toNat ≤ 126) || c = '\n' || c ∈ ['æ', 'ø', 'å', 'Æ', 'Ø', 'Å']

/-- Accumulator-based splitting into maximal whitespace-free words:
Python `text.split()` with no separator argument. -/
def wordsAux : List Char → List Char → List (List Char)
  | [], acc => if acc.isEmpty then [] else [acc.reverse]
  | c :: cs, acc =>
      if pyIsSpace c then
        if acc.isEmpty then wordsAux cs [] else acc.reverse :: wordsAux cs []
      else wordsAux cs (c :: acc)

/-- Python `text.split()` (split on whitespace runs, dropping empty fields). -/
def pySplit (l : List Char) : List (List Char) := wordsAux l []

/-- Python `' '.join(ws)`. -/
def joinSpace : List (List Char) → List Char
  | [] => []
  | [w] => w
  | w :: ws => w ++ ' ' :: joinSpace ws

/-- The whitespace normalization `' '.join(cleaned.split())` of `clean_text`. -/
def normSpace (l : List Char) : List Char := joinSpace (pySplit l)

/-- Embedding of `TickTickToTodoistConverter.clean_text` (converter.py 31-69):
empty input short-circuits to `""`; otherwise strip, apply the replacement
table, drop disallowed characters, and collapse whitespace runs. -/
def clean_text (s : String) : String :=
  if s = "" then ""
  else String.mk (normSpace ((replaceAll (pyStrip s.data)).filter allowedChar))

/-- Python `c.isalnum()`, exact on the ASCII + Latin-1 range (U+0000-U+00FF):
digits, ASCII letters, the ordinal/micro signs U+00AA/U+00B5/U+00BA, the
numeric signs U+00B2/U+00B3/U+00B9/U+00BC/U+00BD/U+00BE, and the Latin-1
letters U+00C0-U+00FF minus the multiplication and division signs; plus
U+0130 (dotted capital I), needed to exhibit the program's behaviour outside
Latin-1.  Other non-Latin-1 alphanumerics are outside the modelled fragment,
which is why the C10 result below is stated for Latin-1 inputs. -/
def pyIsAlnum (c : Char) : Bool :=
  (0x30 ≤ c.toNat && c.toNat ≤ 0x39) ||
    (0x41 ≤ c.toNat && c.toNat ≤ 0x5a) ||
    (0x61 ≤ c.toNat && c.toNat ≤ 0x7a) ||
    (0xc0 ≤ c.toNat && c.toNat ≤ 0xff && c.toNat ≠ 0xd7 && c.toNat ≠ 0xf7) ||
    c.toNat = 0xaa || c.toNat = 0xb5 || c.toNat = 0xba ||
    c.toNat = 0xb2 || c.toNat = 0xb3 || c.toNat = 0xb9 ||
    c.toNat = 0xbc || c.toNat = 0xbd || c.toNat = 0xbe ||
    c.toNat = 0x130

/-- Single-character lowercasing, exact on the ASCII + Latin-1 range: `A`-`Z`
and the Latin-1 uppercase letters map down by 32, everything else in that
range is already caseless or lowercase and is unchanged.  `pyLowerChar` below
extends this to the one expanding case the claims need. -/
def pyLower (c : Char) : Char :=
  if 0x41 ≤ c.toNat ∧ c.toNat ≤ 0x5a then Char.ofNat (c.toNat + 32)
  else if 0xc0 ≤ c.toNat ∧ c.toNat ≤ 0xde ∧ c.toNat ≠ 0xd7 then Char.ofNat (c.toNat + 32)
  else c

/-- Python `str.lower()`, character-wise: U+0130 (dotted capital I) is the
one character whose full lowercase mapping expands, to `i` followed by the
combining dot above U+0307; on the Latin-1 range lowercasing is `pyLower`.
Lowercase mappings of further scripts are outside the modelled fragment. -/
def pyLowerChar (c : Char) : List Char :=
  if c.toNat = 0x130 then ['i', '\u0307'] else [pyLower c]

/-- The Nordic characters kept by `clean_label_name` (converter.py line 80). -/
def nordicChars : List Char := ['æ', 'ø', 'å', 'Æ', 'Ø', 'Å']

/-- Does the list contain two adjacent underscores (Python `'__' in cleaned`)? -/
def hasDD : List Char → Bool
  | [] => false
  | [_] => false
  | c :: d :: rest => (c = '_' && d = '_') || hasDD (d :: rest)

/-- One pass of Python `cleaned.replace('__', '_')`: left-to-right,
non-overlapping. -/
def replaceDD : List Char → List Char
  | [] => []
  | [c] => [c]
  | c :: d :: rest =>
      if c = '_' ∧ d = '_' then '_' :: replaceDD rest
      else c :: replaceDD (d :: rest)

theorem length_replaceDD_le (l : List Char) : (replaceDD l).length ≤ l.length := by
  induction l using replaceDD.induct with
  | case1 => simp [replaceDD]
  | case2 c => simp [replaceDD]
  | case3 c d rest h ih => simp only [replaceDD, if_pos h, List.length_cons]; omega
  | case4 c d rest h ih =>
    simp only [replaceDD, if_neg h, List.length_cons]
    have hl : (d :: rest).length = rest.length + 1 := rfl
    omega

theorem length_replaceDD_lt (l : List Char) (h : hasDD l = true) :
    (replaceDD l).length < l.length := by
  induction l using replaceDD.induct with
  | case1 => simp [hasDD] at h
  | case2 c => simp [hasDD] at h
  | case3 c d rest hdd ih =>
    simp only [replaceDD, if_pos hdd, List.length_cons]
    have := length_replaceDD_le rest
    omega
  | case4 c d rest hdd ih =>
    simp only [replaceDD, if_neg hdd, List.length_cons]
    have hr : hasDD (d :: rest) = true := by
      have : ¬(c = '_' && d = '_') = true := by
        simp only [Bool.and_eq_true, decide_eq_true_eq]
        exact fun ⟨h1, h2⟩ => hdd ⟨h1, h2⟩
      simpa [hasDD, this] using h
    have := ih hr
    have hl : (d :: rest).length = rest.length + 1 := rfl
    omega

/-- Fuel-indexed iteration of `replace('__', '_')`; `collapseDD` supplies the
list length as fuel, which `length_replaceDD_lt` shows is enough for the loop
to reach its fixed point. -/
def collapseDDFuel : Nat → List Char → List Char
  | 0, l => l
  | n + 1, l => if hasDD l then collapseDDFuel n (replaceDD l) else l

/-- The `while '__' in cleaned: cleaned = cleaned.replace('__', '_')` loop of
`clean_label_name`. -/
def collapseDD (l : List Char) : List Char := collapseDDFuel l.length l

/-- Embedding of `TickTickToTodoistConverter.clean_label_name`
(converter.py 71-89): empty input short-circuits; otherwise replace spaces
then hyphens by underscores, keep only alphanumeric / underscore / Nordic
characters, collapse double underscores, strip underscores from both ends,
and lowercase. -/
def clean_label_name (s : String) : String :=
  if s = "" then ""
  else
    let c1 := (s.data.map (fun c => if c = ' ' then '_' else c)).map
      (fun c => if c = '-' then '_' else c)
    let c2 := c1.filter (fun c => pyIsAlnum c || c = '_' || c ∈ nordicChars)
    let c3 := collapseDD c2
    let c4 := dropTrailing (fun c => c = '_') (c3.dropWhile (fun c => c = '_'))
    String.mk (c4.flatMap pyLowerChar)

/-- The expected TickTick export header (converter.py 12-18). -/
def TICKTICK_HEADER : List String :=
  ["Folder Name", "List Name", "Title", "Kind", "Tags", "Content",
   "Is Check list", "Start Date", "Due Date", "Reminder", "Repeat",
   "Priority", "Status", "Created Time", "Completed Time", "Order",
   "Timezone", "Is All Day", "Is Floating", "Column Name",
   "Column Order", "View Mode", "taskId", "parentId"]

/-- The Todoist import header (converter.py 20-23). -/
def TODOIST_HEADER : List String :=
  ["TYPE", "CONTENT", "DESCRIPTION", "PRIORITY", "INDENT", "AUTHOR",
   "RESPONSIBLE", "DATE", "DATE_LANG", "TIMEZONE", "DURATION", "DURATION_UNIT"]

/-- Python `task[22]`: the task identifier field of a source record. -/
def taskIdF (t : List String) : String := t.getD 22 ""

/-- Python `task[23]`: the parent identifier field of a source record. -/
def parentIdF (t : List String) : String := t.getD 23 ""

/-- Python dict assignment `d[k] = v` on an insertion-ordered association
list: update in place when the key exists, else append. -/
def dinsert : List (String × Nat) → String → Nat → List (String × Nat)
  | [], k, v => [(k, v)]
  | (k', v') :: rest, k, v =>
      if k' = k then (k, v) :: rest else (k', v') :: dinsert rest k v

/-- Python dict lookup `d.get(k)` on the association list. -/
def lookupIndent (ind : List (String × Nat)) (k : String) : Option Nat :=
  (ind.find? (fun p => p.1 = k)).map (·.2)

/-- The root-task identifiers collected by `calculate_indents`
(converter.py 128-133): records with an empty parent field, in order. -/
def rootTaskIds (tasks : List (List String)) : List String :=
  (tasks.filter (fun t => parentIdF t = "")).map taskIdF

/-- The `child_tasks` mapping of `calculate_indents` (converter.py 134-137):
for a parent identifier, the identifiers of records carrying it as (non-empty)
parent, in original order.  An identifier with no children maps to `[]`,
matching `task_id in child_tasks` being false. -/
def childTasks (tasks : List (List String)) (p : String) : List String :=
  (tasks.filter (fun t => parentIdF t ≠ "" && parentIdF t = p)).map taskIdF

/-- The recursive `set_indent_level` of `calculate_indents`
(converter.py 140-144), with explicit fuel standing for the call stack.  Any
fuel larger than the forest depth computes the same result as the Python
recursion; `calculate_indents` passes `tasks.length + 1`, which suffices for
every acyclic input. -/
def set_indent_level (child : String → List String) :
    Nat → String → Nat → List (String × Nat) → List (String × Nat)
  | 0, _, _, ind => ind
  | fuel + 1, tid, level, ind =>
      (child tid).foldl (fun acc c => set_indent_level child fuel c (level + 1) acc)
        (dinsert ind tid (min level 4))

/-- Embedding of `calculate_indents` (converter.py 121-150). -/
def calculate_indents (tasks : List (List String)) : List (String × Nat) :=
  (rootTaskIds tasks).foldl
    (fun acc r => set_indent_level (childTasks tasks) (tasks.length + 1) r 1 acc) []

/-- The set (as an ordered list, possibly with repeats) of identifiers visited
by a `set_indent_level` call with the given fuel. -/
def visits (child : String → List String) : Nat → String → List String
  | 0, _ => []
  | fuel + 1, tid => tid :: (child tid).flatMap (visits child fuel)

/-- Embedding of `validate_csv_row` (converter.py 152-164).  The source builds
`csv.writer(output)` where `output` is a plain Python list; a list object has
no `write` method, so the `csv.writer` constructor raises `TypeError` inside
the `try` block and the `except Exception` clause returns `False` — for every
row, whatever its content. -/
def validate_csv_row (_row : List String) : Bool := false

/-- Embedding of `create_note_row` (converter.py 219-241): build the note row
from the sanitized description, then keep it only if `validate_csv_row`
accepts it (it never does, see above). -/
def create_note_row (content : String) : Option (List String) :=
  let cleaned := clean_text content
  let row := ["note", cleaned, "", "", "", "", "", "", "en", "UTC", "", "None"]
  if validate_csv_row row then some row else none

/-- Python `PRIORITY_MAP.get(code, 4)` with
`PRIORITY_MAP = {0: 4, 5: 3, 3: 2, 1: 1}` (converter.py 25). -/
def PRIORITY_MAP_get (code : Int) : Nat :=
  if code = 0 then 4
  else if code = 5 then 3
  else if code = 3 then 2
  else if code = 1 then 1
  else 4

/-- Numeric value of a run of decimal digits. -/
def digitsVal (ds : List Char) : Nat :=
  ds.foldl (fun a c => a * 10 + (c.toNat - 48)) 0

/-- Python `int(s)` on decimal strings: optional surrounding whitespace, an
optional sign, then at least one digit; anything else raises `ValueError`
(modelled as `none`).  Numeric-literal underscores and non-ASCII digits are
not modelled. -/
def pyInt (s : String) : Option Int :=
  match pyStrip s.data with
  | '-' :: ds =>
      if ds ≠ [] ∧ ds.all Char.isDigit then some (-(digitsVal ds : Int)) else none
  | '+' :: ds =>
      if ds ≠ [] ∧ ds.all Char.isDigit then some (digitsVal ds : Int) else none
  | ds =>
      if ds ≠ [] ∧ ds.all Char.isDigit then some (digitsVal ds : Int) else none

/-- Python `' '.join(strings)`. -/
def joinStrSpace : List String → String
  | [] => ""
  | [s] => s
  | s :: ss => s ++ " " ++ joinStrSpace ss

/-- Failure modes of a conversion run (uncaught Python exceptions):
the header-mismatch `ValueError` of `read_ticktick_csv`, the
`task_ids.index` `ValueError` of the hierarchy sort, and the `int(task[11])`
`ValueError` of `create_todoist_task`. -/
inductive ConvErr where
  | headerMismatch
  | unknownTaskId
  | badPriority
deriving DecidableEq

/-- Embedding of `create_todoist_task` (converter.py 166-218).  `.ok []`
models the empty-list return for an empty sanitized title (before the
priority field is ever parsed); `.error .badPriority` models the uncaught
`ValueError` of `int(task[11])`, which is only evaluated when priority
mapping is enabled (Python's conditional expression is lazy). -/
def create_todoist_task (include_priority : Bool) (task : List String) (indent : Nat) :
    Except ConvErr (List String) :=
  let title := clean_text (task.getD 2 "")
  let content := clean_text (task.getD 5 "")
  if title = "" then .ok []
  else
    let list_name := task.getD 1 ""
    let folder_name := task.getD 0 ""
    let status := task.getD 12 ""
    let due_date := task.getD 8 ""
    let labels :=
      (if list_name ≠ "" then ["list_" ++ clean_label_name list_name] else []) ++
      (if folder_name ≠ "" then ["folder_" ++ clean_label_name folder_name] else []) ++
      (if status = "2" then ["completed"] else []) ++
      (if task.getD 4 "" ≠ "" then
        ((task.getD 4 "").splitOn ",").map
          (fun tag => clean_label_name (String.mk (pyStrip tag.data)))
      else [])
    let task_content :=
      if labels ≠ [] then
        title ++ " " ++ joinStrSpace (labels.map (fun l => "@" ++ l))
      else title
    match (if include_priority then
             (pyInt (task.getD 11 "")).map (fun n => toString (PRIORITY_MAP_get n))
           else some "4") with
    | none => .error .badPriority
    | some priority =>
        .ok ["task", task_content, content, priority, toString indent, "", "",
             due_date, "en", "UTC", "", "None"]

/-- Python `f"part_{chunk_number}_of_{total_chunks}"`. -/
def partTag (chunk_number total_chunks : Nat) : String :=
  "part_" ++ toString chunk_number ++ "_of_" ++ toString total_chunks

/-- Embedding of `process_chunk` (converter.py 243-255): copy each record and,
when there is more than one chunk, append the chunk tag to the tags field. -/
def process_chunk (tasks : List (List String)) (chunk_number total_chunks : Nat) :
    List (List String) :=
  tasks.map (fun task =>
    if total_chunks > 1 then
      if task.getD 4 "" ≠ "" then
        task.set 4 (task.getD 4 "" ++ "," ++ partTag chunk_number total_chunks)
      else task.set 4 (partTag chunk_number total_chunks)
    else task)

/-- Todoist's per-project task limit (converter.py 26). -/
def TASKS_PER_PROJECT : Nat := 300

/-- Embedding of `split_tasks_into_chunks` (converter.py 257-276).  The
Python slice `tasks[i*300 : min((i+1)*300, n)]` is `(tasks.drop (i*300)).take
300`, and `ceil(n / 300)` on naturals is `(n + 299) / 300`. -/
def split_tasks_into_chunks (tasks : List (List String)) : List (List (List String)) :=
  if tasks.length ≤ TASKS_PER_PROJECT then [tasks]
  else
    let num_chunks := (tasks.length + (TASKS_PER_PROJECT - 1)) / TASKS_PER_PROJECT
    (List.range num_chunks).map (fun i =>
      process_chunk ((tasks.drop (i * TASKS_PER_PROJECT)).take TASKS_PER_PROJECT)
        (i + 1) num_chunks)

/-- The per-record body of the output loop of `convert` (converter.py 306-316):
the task row if non-empty, then the note row if the raw description is
non-empty and the note validates. -/
def emitRecord (include_priority : Bool) (indents : List (String × Nat))
    (task : List String) : Except ConvErr (List (List String)) := do
  let tt ← create_todoist_task include_priority task
    ((lookupIndent indents (taskIdF task)).getD 0)
  let base := if tt ≠ [] then [tt] else []
  if task.getD 5 "" ≠ "" then
    match create_note_row (task.getD 5 "") with
    | some r => pure (base ++ [r])
    | none => pure base
  else pure base

/-- All destination rows produced for one chunk, in encounter order. -/
def emitChunk (include_priority : Bool) (indents : List (String × Nat)) :
    List (List String) → Except ConvErr (List (List String))
  | [] => pure []
  | t :: ts => do
      let rows ← emitRecord include_priority indents t
      let rest ← emitChunk include_priority indents ts
      pure (rows ++ rest)

/-- The per-chunk output files of `convert` (converter.py 299-321): each file
is the fixed Todoist header followed by the chunk's emitted rows. -/
def convertChunks (include_priority : Bool) (indents : List (String × Nat)) :
    List (List (List String)) → Except ConvErr (List (List (List String)))
  | [] => pure []
  | c :: cs => do
      let body ← emitChunk include_priority indents c
      let rest ← convertChunks include_priority indents cs
      pure ((TODOIST_HEADER :: body) :: rest)

/-- Python `list.index`, defined on members (`convert` pre-checks membership;
on a missing key the source raises `ValueError`, modelled in `convert`). -/
def listIndexOf : List String → String → Nat
  | [], _ => 0
  | x :: xs, s => if x = s then 0 else listIndexOf xs s + 1

/-- Stable insertion into a key-sorted list (earlier-listed elements stay
before later ones with an equal key, as in Python's stable `list.sort`). -/
def insertSorted (key : List String → Nat) (x : List String) :
    List (List String) → List (List String)
  | [] => [x]
  | y :: ys => if key y < key x then y :: insertSorted key x ys else x :: y :: ys

/-- Stable sort by a numeric key, modelling `tasks.sort(key=...)`. -/
def sortByKey (key : List String → Nat) : List (List String) → List (List String)
  | [] => []
  | x :: xs => insertSorted key x (sortByKey key xs)

/-- Embedding of the `convert` pipeline (converter.py 278-328) over an
already-decoded file: the header row read after the 6-line preamble, the data
rows, and the priority-mapping flag.  The result is the list of written
output files (one list of rows per chunk), or the uncaught exception that
aborts the run.  The header check happens in `read_ticktick_csv` before
anything is written; `tasks.sort(key=lambda x: task_ids.index(x[22]))` raises
`ValueError` when some record's identifier is absent from the computed
`indents` keys. -/
def indentKeys (rows : List (List String)) : List String :=
  (calculate_indents rows).map (·.1)

def convert (header : List String) (rows : List (List String))
    (include_priority : Bool) : Except ConvErr (List (List (List String))) :=
  if header ≠ TICKTICK_HEADER then .error .headerMismatch
  else if rows.all (fun t => (indentKeys rows).contains (taskIdF t)) then
    convertChunks include_priority (calculate_indents rows)
      (split_tasks_into_chunks
        (sortByKey (fun t => listIndexOf (indentKeys rows) (taskIdF t)) rows))
  else .error .unknownTaskId

/-- A sample well-formed source record: title `Hello`, description `desc`,
list `L`, identifier `a`, no parent. -/
def sampleTask : List String :=
  ["", "L", "Hello", "", "", "desc", "", "", "", "", "", "0", "0",
   "", "", "", "", "", "", "", "", "", "a", ""]

/-- A record whose parent identifier matches no record's own identifier. -/
def orphanTask : List String :=
  ["", "L", "T1", "", "", "", "", "", "", "", "", "0", "0",
   "", "", "", "", "", "", "", "", "", "a", "missing"]

theorem create_note_row_none (s : String) : create_note_row s = none := rfl

theorem create_todoist_task_ok_shape (ip : Bool) (task : List String) (indent : Nat)
    (tt : List String) (h : create_todoist_task ip task indent = .ok tt) :
    tt = [] ∨ tt.getD 0 "" = "task" := by
  by_cases ht : clean_text (task.getD 2 "") = ""
  · left
    unfold create_todoist_task at h
    rw [if_pos ht] at h
    injection h with h'
    exact h'.symm
  · right
    unfold create_todoist_task at h
    rw [if_neg ht] at h
    cases hm : (if ip = true then
        (pyInt (task.getD 11 "")).map (fun n => toString (PRIORITY_MAP_get n))
      else some "4") with
    | none => rw [hm] at h; simp at h
    | some p =>
      rw [hm] at h
      simp only [Except.ok.injEq] at h
      rw [← h]
      rfl

theorem emitRecord_ok_rows (ip : Bool) (ind : List (String × Nat)) (task : List String)
    (rows : List (List String)) (h : emitRecord ip ind task = .ok rows) :
    ∀ row ∈ rows, row.getD 0 "" = "task" := by
  unfold emitRecord at h
  cases hc : create_todoist_task ip task ((lookupIndent ind (taskIdF task)).getD 0) with
  | error e => rw [hc] at h; simp [Bind.bind, Except.bind] at h
  | ok trow =>
    rw [hc] at h
    simp only [Bind.bind, Except.bind, create_note_row_none] at h
    have hrows : rows = if trow ≠ [] then [trow] else [] := by
      split at h <;> simpa [pure, Except.pure] using h.symm
    subst hrows
    intro row hrow
    split at hrow
    · rename_i htrow
      simp only [List.mem_singleton] at hrow
      rcases create_todoist_task_ok_shape ip task _ trow hc with h0 | h0
      · exact absurd h0 htrow
      · rw [hrow]; exact h0
    · simp at hrow

theorem emitChunk_ok_rows (ip : Bool) (ind : List (String × Nat))
    (chunk : List (List String)) (body : List (List String))
    (h : emitChunk ip ind chunk = .ok body) :
    ∀ row ∈ body, row.getD 0 "" = "task" := by
  induction chunk generalizing body with
  | nil =>
    simp only [emitChunk, pure, Except.pure, Except.ok.injEq] at h
    subst h; simp
  | cons t ts ih =>
    simp only [emitChunk, Bind.bind, Except.bind] at h
    cases hr : emitRecord ip ind t with
    | error e => rw [hr] at h; simp at h
    | ok rows =>
      rw [hr] at h
      cases hrest : emitChunk ip ind ts with
      | error e => rw [hrest] at h; simp at h
      | ok rest =>
        rw [hrest] at h
        simp only [pure, Except.pure, Except.ok.injEq] at h
        subst h
        intro row hrow
        rcases List.mem_append.mp hrow with hm | hm
        · exact emitRecord_ok_rows ip ind t rows hr row hm
        · exact ih rest hrest row hm

theorem convertChunks_ok_rows (ip : Bool) (ind : List (String × Nat))
    (chunks : List (List (List String))) (files : List (List (List String)))
    (h : convertChunks ip ind chunks = .ok files) :
    ∀ file ∈ files, ∀ row ∈ file, row = TODOIST_HEADER ∨ row.getD 0 "" = "task" := by
  induction chunks generalizing files with
  | nil =>
    simp only [convertChunks, pure, Except.pure, Except.ok.injEq] at h
    subst h; simp
  | cons c cs ih =>
    simp only [convertChunks, Bind.bind, Except.bind] at h
    cases hb : emitChunk ip ind c with
    | error e => rw [hb] at h; simp at h
    | ok body =>
      rw [hb] at h
      cases hrest : convertChunks ip ind cs with
      | error e => rw [hrest] at h; simp at h
      | ok rest =>
        rw [hrest] at h
        simp only [pure, Except.pure, Except.ok.injEq] at h
        subst h
        intro file hfile
        rcases List.mem_cons.mp hfile with hf | hf
        · subst hf
          intro row hrow
          rcases List.mem_cons.mp hrow with hr | hr
          · exact Or.inl hr
          · exact Or.inr (emitChunk_ok_rows ip ind c body hb row hr)
        · exact ih rest hrest file hf

/-- C3: for every row, `validate_csv_row` returns `False` (the round-trip
check writes through a `csv.writer` constructed over a plain Python list,
which raises and is caught), hence `create_note_row` returns `None` for every
input string, and no Note-kind row appears in any output file of any
successful conversion run. -/
theorem c3_no_note_rows :
    (∀ row : List String, validate_csv_row row = false) ∧
    (∀ s : String, create_note_row s = none) ∧
    (∀ (header : List String) (rows : List (List String)) (ip : Bool)
       (files : List (List (List String))), convert header rows ip = .ok files →
      ∀ file ∈ files, ∀ row ∈ file, row.getD 0 "" ≠ "note") := by
  refine ⟨fun _ => rfl, fun _ => rfl, ?_⟩
  intro header rows ip files h file hfile row hrow
  unfold convert at h
  split at h
  · simp at h
  · split at h
    · rcases convertChunks_ok_rows ip _ _ files h file hfile row hrow with hr | hr
      · subst hr; simp [TODOIST_HEADER]
      · rw [hr]; decide
    · simp at h

theorem c3_no_note_rows_witness :
    (["task", "Hello @list_l", "desc", "4", "1", "", "", "", "en", "UTC", "",
      "None"] : List String).getD 0 "" ≠ "note" :=
  c3_no_note_rows.2.2 TICKTICK_HEADER [sampleTask] true
    [[TODOIST_HEADER,
      ["task", "Hello @list_l", "desc", "4", "1", "", "", "", "en", "UTC", "",
       "None"]]]
    (by rfl)
    [TODOIST_HEADER,
     ["task", "Hello @list_l", "desc", "4", "1", "", "", "", "en", "UTC", "",
      "None"]]
    (by simp)
    ["task", "Hello @list_l", "desc", "4", "1", "", "", "", "en", "UTC", "",
     "None"]
    (by simp)

/-- C7: whenever the header row read after the preamble differs from the
expected 24-column TickTick header, the run aborts with the format-validation
error, producing no output files. -/
theorem c7_header_mismatch_aborts (header : List String) (rows : List (List String))
    (ip : Bool) (h : header ≠ TICKTICK_HEADER) :
    convert header rows ip = .error .headerMismatch := by
  simp [convert, h]

theorem c7_header_mismatch_aborts_witness :
    convert ["Folder Name"] [sampleTask] true = .error .headerMismatch :=
  c7_header_mismatch_aborts ["Folder Name"] [sampleTask] true (by decide)

theorem create_todoist_task_empty_title (ip : Bool) (task : List String)
    (indent : Nat) (h : clean_text (task.getD 2 "") = "") :
    create_todoist_task ip task indent = .ok [] := by
  unfold create_todoist_task
  rw [h]
  simp

/-- C5: a record whose title sanitizes to the empty string contributes no
destination rows at all — the task row is suppressed by `create_todoist_task`
returning the empty list, and the note row is suppressed because
`create_note_row` never validates. -/
theorem c5_empty_title_discard (ip : Bool) (ind : List (String × Nat))
    (task : List String) (h : clean_text (task.getD 2 "") = "") :
    emitRecord ip ind task = .ok [] := by
  unfold emitRecord
  rw [create_todoist_task_empty_title ip task
    ((lookupIndent ind (taskIdF task)).getD 0) h]
  simp only [Bind.bind, Except.bind, create_note_row_none]
  split <;> rfl

theorem c5_empty_title_discard_witness :
    emitRecord true [("a", 1)]
      ["", "L", "", "", "", "desc", "", "", "", "", "", "0", "0",
       "", "", "", "", "", "", "", "", "", "a", ""] = .ok [] :=
  c5_empty_title_discard true [("a", 1)] _ (by rfl)

/-- C1 evaluated on the code: a record with a non-empty description never
yields a Note row, because the round-trip validation rejects every row; the
warning branch (`return None`) is taken for every note. -/
theorem c1_note_always_discarded :
    create_note_row "hello" = none ∧
    validate_csv_row
      ["note", "hello", "", "", "", "", "", "", "en", "UTC", "", "None"] = false ∧
    emitRecord true [("a", 1)] sampleTask =
      .ok [["task", "Hello @list_l", "desc", "4", "1", "", "", "", "en", "UTC",
            "", "None"]] :=
  ⟨rfl, rfl, by rfl⟩

/-- C2 counterexample: for the single-record input whose parent identifier
`missing` matches no record, the record is not assigned indent level 1 — it is
absent from the hierarchy index entirely — and the conversion run aborts
instead of completing normally. -/
theorem c2_orphan_counterexample :
    lookupIndent (calculate_indents [orphanTask]) "a" = none ∧
    convert TICKTICK_HEADER [orphanTask] true = .error .unknownTaskId :=
  ⟨by rfl, by rfl⟩

/-- A sample record with TickTick priority code 5. -/
def prioTask : List String :=
  ["", "L", "Hello", "", "", "desc", "", "", "", "", "", "5", "0",
   "", "", "", "", "", "", "", "", "", "a", ""]

/-- C4: the emitted task's PRIORITY field is the fixed table
`{0 → 4, 5 → 3, 3 → 2, 1 → 1}` applied to the parsed priority code, with
default 4 for unmapped codes, when mapping is enabled; and the constant `4`
for every task when mapping is disabled. -/
theorem c4_priority_mapping :
    (PRIORITY_MAP_get 0 = 4 ∧ PRIORITY_MAP_get 5 = 3 ∧ PRIORITY_MAP_get 3 = 2 ∧
     PRIORITY_MAP_get 1 = 1) ∧
    (∀ code : Int, code ≠ 0 → code ≠ 5 → code ≠ 3 → code ≠ 1 →
      PRIORITY_MAP_get code = 4) ∧
    (∀ (task : List String) (indent : Nat) (code : Int) (row : List String),
      pyInt (task.getD 11 "") = some code →
      create_todoist_task true task indent = .ok row → row ≠ [] →
      row.getD 3 "" = toString (PRIORITY_MAP_get code)) ∧
    (∀ (task : List String) (indent : Nat) (row : List String),
      create_todoist_task false task indent = .ok row → row ≠ [] →
      row.getD 3 "" = "4") := by
  refine ⟨⟨rfl, rfl, rfl, rfl⟩, ?_, ?_, ?_⟩
  · intro code h0 h5 h3 h1
    simp [PRIORITY_MAP_get, h0, h5, h3, h1]
  · intro task indent code row hpy hc hne
    by_cases ht : clean_text (task.getD 2 "") = ""
    · rw [create_todoist_task_empty_title true task indent ht] at hc
      injection hc with hc'
      exact absurd hc'.symm hne
    · unfold create_todoist_task at hc
      rw [if_neg ht] at hc
      rw [if_pos rfl, hpy] at hc
      simp only [Option.map_some', Except.ok.injEq] at hc
      rw [← hc]
      rfl
  · intro task indent row hc hne
    by_cases ht : clean_text (task.getD 2 "") = ""
    · rw [create_todoist_task_empty_title false task indent ht] at hc
      injection hc with hc'
      exact absurd hc'.symm hne
    · unfold create_todoist_task at hc
      rw [if_neg ht] at hc
      simp only [Bool.false_eq_true, if_false] at hc
      simp only [Except.ok.injEq] at hc
      rw [← hc]
      rfl

theorem flatten_slices {α : Type} (P : Nat) :
    ∀ (k : Nat) (l : List α), l.length ≤ k * P →
      ((List.range k).map (fun i => (l.drop (i * P)).take P)).flatten = l := by
  intro k
  induction k with
  | zero =>
    intro l hl
    simp at hl
    simp [hl]
  | succ k ih =>
    intro l hl
    rw [List.range_succ_eq_map]
    simp only [List.map_cons, List.map_map]
    rw [List.flatten_cons]
    have h1 : ∀ i : Nat, ((fun i => (l.drop (i * P)).take P) ∘ Nat.succ) i
        = ((l.drop P).drop (i * P)).take P := by
      intro i
      simp only [Function.comp]
      rw [List.drop_drop]
      congr 1
      rw [Nat.succ_mul]
      ring
    rw [List.map_congr_left (fun i _ => h1 i)]
    have hl' : l.length - P ≤ k * P := by
      rw [Nat.succ_mul] at hl
      omega
    have h2 := ih (l.drop P) (by simpa using hl')
    rw [h2]
    simp

/-- C6: with at most 300 records the chunker returns the input as a single
unmodified chunk; with more it returns `ceil(n/300)` contiguous chunks of
exactly 300 records except a smaller final one, whose concatenation is the
input in order (up to the rewritten tag field), each record's tag field
becoming its original tags plus the 1-based `part_i_of_k` tag (comma-appended
after existing tags, or set outright when there were none). -/
theorem c6_chunker (tasks : List (List String)) (hw : ∀ t ∈ tasks, t.length = 24) :
    (tasks.length ≤ 300 → split_tasks_into_chunks tasks = [tasks]) ∧
    (300 < tasks.length →
      (split_tasks_into_chunks tasks).length = (tasks.length + 299) / 300 ∧
      (∀ i, i + 1 < (tasks.length + 299) / 300 →
        ((split_tasks_into_chunks tasks).getD i []).length = 300) ∧
      ((split_tasks_into_chunks tasks).getD ((tasks.length + 299) / 300 - 1) []).length
        = tasks.length - 300 * ((tasks.length + 299) / 300 - 1) ∧
      (split_tasks_into_chunks tasks).flatten.map (fun t => t.set 4 "") =
        tasks.map (fun t => t.set 4 "") ∧
      (∀ i, i < (tasks.length + 299) / 300 →
        (split_tasks_into_chunks tasks).getD i [] =
          ((tasks.drop (i * 300)).take 300).map (fun t =>
            if t.getD 4 "" ≠ "" then
              t.set 4 (t.getD 4 "" ++ "," ++ partTag (i + 1) ((tasks.length + 299) / 300))
            else t.set 4 (partTag (i + 1) ((tasks.length + 299) / 300)))) ∧
      (∀ i, i < (tasks.length + 299) / 300 →
        ∀ t ∈ (split_tasks_into_chunks tasks).getD i [], ∃ t0 ∈ tasks,
          t.getD 4 "" = (if t0.getD 4 "" ≠ "" then
              t0.getD 4 "" ++ "," ++ partTag (i + 1) ((tasks.length + 299) / 300)
            else partTag (i + 1) ((tasks.length + 299) / 300)))) := by
  constructor
  · intro h
    simp [split_tasks_into_chunks, TASKS_PER_PROJECT, h]
  · intro h
    have hdm := Nat.div_add_mod (tasks.length + 299) 300
    have hmlt : (tasks.length + 299) % 300 < 300 := Nat.mod_lt _ (by norm_num)
    have hk2 : 2 ≤ (tasks.length + 299) / 300 := by omega
    have hkub : tasks.length ≤ ((tasks.length + 299) / 300) * 300 := by omega
    have hsplit : split_tasks_into_chunks tasks =
        (List.range ((tasks.length + 299) / 300)).map (fun i =>
          process_chunk ((tasks.drop (i * 300)).take 300) (i + 1)
            ((tasks.length + 299) / 300)) := by
      rw [split_tasks_into_chunks, if_neg (by simp [TASKS_PER_PROJECT]; omega)]
      rfl
    have hchar : ∀ i, i < (tasks.length + 299) / 300 →
        (split_tasks_into_chunks tasks).getD i [] =
          ((tasks.drop (i * 300)).take 300).map (fun t =>
            if t.getD 4 "" ≠ "" then
              t.set 4 (t.getD 4 "" ++ "," ++ partTag (i + 1) ((tasks.length + 299) / 300))
            else t.set 4 (partTag (i + 1) ((tasks.length + 299) / 300))) := by
      intro i hi
      rw [hsplit, List.getD_eq_getElem?_getD, List.getElem?_map,
        List.getElem?_range hi]
      simp only [Option.map_some', Option.getD_some]
      rw [process_chunk]
      refine List.map_congr_left ?_
      intro t _
      rw [if_pos (by omega)]
    have hlen : ∀ i, i < (tasks.length + 299) / 300 →
        ((split_tasks_into_chunks tasks).getD i []).length
          = min 300 (tasks.length - i * 300) := by
      intro i hi
      rw [hchar i hi, List.length_map, List.length_take, List.length_drop]
    refine ⟨?_, ?_, ?_, ?_, hchar, ?_⟩
    · rw [hsplit]
      simp
    · intro i hi
      rw [hlen i (by omega)]
      have h300 : (i + 1) * 300 ≤ tasks.length := by
        have : 300 * ((tasks.length + 299) / 300 - 1) ≤ tasks.length - 1 := by omega
        have hi1 : i + 1 ≤ (tasks.length + 299) / 300 - 1 := by omega
        have := Nat.mul_le_mul_left 300 hi1
        omega
      omega
    · rw [hlen _ (by omega)]
      omega
    · rw [hsplit]
      rw [List.map_flatten]
      rw [List.map_map]
      have hpt : ∀ i ∈ List.range ((tasks.length + 299) / 300),
          ((List.map (fun t : List String => t.set 4 "")) ∘ (fun i =>
            process_chunk ((tasks.drop (i * 300)).take 300) (i + 1)
              ((tasks.length + 299) / 300))) i
          = (((tasks.map (fun t => t.set 4 "")).drop (i * 300)).take 300) := by
        intro i _
        simp only [Function.comp, process_chunk, List.map_map]
        rw [← List.map_drop, ← List.map_take]
        refine List.map_congr_left ?_
        intro t _
        simp only [Function.comp]
        split
        · split
          · rw [List.set_set]
          · rw [List.set_set]
        · rfl
      rw [List.map_congr_left hpt]
      exact flatten_slices 300 _ _ (by simpa using hkub)
    · intro i hi t ht
      rw [hchar i hi] at ht
      rcases List.mem_map.mp ht with ⟨t0, ht0, rfl⟩
      have ht0' : t0 ∈ tasks := List.mem_of_mem_drop (List.mem_of_mem_take ht0)
      refine ⟨t0, ht0', ?_⟩
      have hlen4 : 4 < t0.length := by rw [hw t0 ht0']; omega
      split
      · rw [List.getD_eq_getElem?_getD, List.getElem?_set_self (by simpa using hlen4)]
        rfl
      · rw [List.getD_eq_getElem?_getD, List.getElem?_set_self (by simpa using hlen4)]
        rfl

theorem c6_chunker_witness :
    (split_tasks_into_chunks (List.replicate 301 sampleTask)).length
      = (301 + 299) / 300 := by
  have hw : ∀ t ∈ List.replicate 301 sampleTask, t.length = 24 := by
    intro t ht
    rw [List.eq_of_mem_replicate ht]
    rfl
  have h := (c6_chunker (List.replicate 301 sampleTask) hw).2
    (by rw [List.length_replicate]; norm_num)
  rw [List.length_replicate] at h
  exact h.1

theorem c4_priority_mapping_witness :
    (["task", "Hello @list_l", "desc", "3", "1", "", "", "", "en", "UTC", "",
      "None"] : List String).getD 3 "" = toString (PRIORITY_MAP_get 5) :=
  c4_priority_mapping.2.2.1 prioTask 1 5
    ["task", "Hello @list_l", "desc", "3", "1", "", "", "", "en", "UTC", "",
     "None"]
    (by rfl) (by rfl) (by simp)

/-- A character that survives one pass of `clean_text`: allowed by the filter
and not whitespace. -/
def goodChar (c : Char) : Bool := allowedChar c && !(pyIsSpace c)

theorem isPrefixOf_mem {old l : List Char} (h : old.isPrefixOf l = true) :
    ∀ k ∈ old, k ∈ l := by
  rw [List.isPrefixOf_iff_prefix] at h
  obtain ⟨t, rfl⟩ := h
  exact fun k hk => List.mem_append_left t hk

theorem pyReplaceFuel_self (old : List Char) :
    ∀ (fuel : Nat) (l : List Char), pyReplaceFuel old old fuel l = l := by
  intro fuel
  induction fuel with
  | zero => intro l; rfl
  | succ fuel ih =>
    intro l
    cases l with
    | nil => rfl
    | cons c rest =>
      rw [pyReplaceFuel]
      split
      · rename_i hpre
        rw [ih]
        rw [List.isPrefixOf_iff_prefix] at hpre
        obtain ⟨t, ht⟩ := hpre
        rw [← ht, List.drop_left]
      · rw [ih]

theorem pyReplaceFuel_not_mem {k : Char} (old new : List Char) (hk : k ∈ old) :
    ∀ (fuel : Nat) (l : List Char), (∀ c ∈ l, c ≠ k) →
      pyReplaceFuel old new fuel l = l := by
  intro fuel
  induction fuel with
  | zero => intro l _; rfl
  | succ fuel ih =>
    intro l hl
    cases l with
    | nil => rfl
    | cons c rest =>
      rw [pyReplaceFuel]
      split
      · rename_i hpre
        exact absurd rfl (hl k (isPrefixOf_mem hpre k hk))
      · rw [ih rest (fun d hd => hl d (by simp [hd]))]

theorem wordsAux_words : ∀ (l acc : List Char), (∀ c ∈ acc, pyIsSpace c = false) →
    ∀ w ∈ wordsAux l acc,
      w ≠ [] ∧ ∀ c ∈ w, pyIsSpace c = false ∧ (c ∈ l ∨ c ∈ acc) := by
  intro l
  induction l with
  | nil =>
    intro acc hacc w hw
    simp only [wordsAux] at hw
    split at hw
    · simp at hw
    · rename_i hne
      simp only [List.mem_singleton] at hw
      subst hw
      refine ⟨by simpa [List.isEmpty_iff] using hne, ?_⟩
      intro c hc
      rw [List.mem_reverse] at hc
      exact ⟨hacc c hc, Or.inr hc⟩
  | cons a l ih =>
    intro acc hacc w hw
    simp only [wordsAux] at hw
    by_cases hs : pyIsSpace a = true
    · rw [if_pos hs] at hw
      split at hw
      · obtain ⟨h1, h2⟩ := ih [] (by simp) w hw
        exact ⟨h1, fun c hc => ⟨(h2 c hc).1, by
          rcases (h2 c hc).2 with h | h
          · exact Or.inl (by simp [h])
          · simp at h⟩⟩
      · rename_i hne
        rcases List.mem_cons.mp hw with hw1 | hw2
        · subst hw1
          refine ⟨by simpa [List.isEmpty_iff] using hne, ?_⟩
          intro c hc
          rw [List.mem_reverse] at hc
          exact ⟨hacc c hc, Or.inr hc⟩
        · obtain ⟨h1, h2⟩ := ih [] (by simp) w hw2
          exact ⟨h1, fun c hc => ⟨(h2 c hc).1, by
            rcases (h2 c hc).2 with h | h
            · exact Or.inl (by simp [h])
            · simp at h⟩⟩
    · rw [if_neg hs] at hw
      have hs' : pyIsSpace a = false := by simpa using hs
      obtain ⟨h1, h2⟩ := ih (a :: acc)
        (by intro c hc
            rcases List.mem_cons.mp hc with rfl | hc
            · exact hs'
            · exact hacc c hc) w hw
      refine ⟨h1, ?_⟩
      intro c hc
      refine ⟨(h2 c hc).1, ?_⟩
      rcases (h2 c hc).2 with h | h
      · exact Or.inl (by simp [h])
      · rcases List.mem_cons.mp h with rfl | h
        · exact Or.inl (by simp)
        · exact Or.inr h

theorem wordsAux_append (w : List Char) :
    ∀ (l acc : List Char), (∀ c ∈ w, pyIsSpace c = false) →
      wordsAux (w ++ l) acc = wordsAux l (w.reverse ++ acc) := by
  induction w with
  | nil => intro l acc _; simp
  | cons c w' ih =>
    intro l acc h
    have hc : pyIsSpace c = false := h c (by simp)
    rw [List.cons_append]
    show (if pyIsSpace c = true then _ else wordsAux (w' ++ l) (c :: acc)) = _
    rw [if_neg (by simp [hc])]
    rw [ih l (c :: acc) (fun d hd => h d (by simp [hd]))]
    simp

theorem wordsAux_space (l acc : List Char) (h : acc ≠ []) :
    wordsAux (' ' :: l) acc = acc.reverse :: wordsAux l [] := by
  show (if pyIsSpace ' ' = true then
      if acc.isEmpty then wordsAux l [] else acc.reverse :: wordsAux l []
    else _) = _
  rw [if_pos (by decide), if_neg (by simpa [List.isEmpty_iff] using h)]

theorem pySplit_joinSpace : ∀ ws : List (List Char),
    (∀ w ∈ ws, w ≠ [] ∧ ∀ c ∈ w, pyIsSpace c = false) →
    pySplit (joinSpace ws) = ws := by
  intro ws
  induction ws with
  | nil => intro _; rfl
  | cons w ws' ih =>
    intro h
    obtain ⟨hw, hcs⟩ := h w (by simp)
    cases ws' with
    | nil =>
      show wordsAux (joinSpace [w]) [] = [w]
      have haux : wordsAux (w ++ []) [] = wordsAux [] (w.reverse ++ []) :=
        wordsAux_append w [] [] hcs
      rw [List.append_nil] at haux
      rw [show joinSpace [w] = w from rfl, haux]
      show (if (w.reverse ++ []).isEmpty then ([] : List (List Char))
        else [(w.reverse ++ []).reverse]) = [w]
      rw [if_neg (by simpa [List.isEmpty_iff] using hw)]
      simp
    | cons w2 ws'' =>
      show wordsAux (joinSpace (w :: w2 :: ws'')) [] = _
      rw [show joinSpace (w :: w2 :: ws'') = w ++ ' ' :: joinSpace (w2 :: ws'')
          from rfl,
        wordsAux_append w _ [] hcs,
        wordsAux_space _ _ (by simpa [List.isEmpty_iff] using hw)]
      simp only [List.append_nil, List.reverse_reverse]
      congr 1
      exact ih (fun w' h' => h w' (by simp [h']))

theorem mem_joinSpace : ∀ (ws : List (List Char)) (c : Char), c ∈ joinSpace ws →
    (∃ w ∈ ws, c ∈ w) ∨ c = ' ' := by
  intro ws
  induction ws with
  | nil => intro c hc; simp [joinSpace] at hc
  | cons w ws' ih =>
    intro c hc
    cases ws' with
    | nil => exact Or.inl ⟨w, by simp, by simpa [joinSpace] using hc⟩
    | cons w2 ws'' =>
      rw [show joinSpace (w :: w2 :: ws'') = w ++ ' ' :: joinSpace (w2 :: ws'')
          from rfl] at hc
      rcases List.mem_append.mp hc with h | h
      · exact Or.inl ⟨w, by simp, h⟩
      · rcases List.mem_cons.mp h with h | h
        · exact Or.inr h
        · rcases ih c h with ⟨w', hw', hc'⟩ | h'
          · exact Or.inl ⟨w', by simp [hw'], hc'⟩
          · exact Or.inr h'

theorem joinSpace_head (c : Char) (w' : List Char) (ws : List (List Char)) :
    ∃ t, joinSpace ((c :: w') :: ws) = c :: t := by
  cases ws with
  | nil => exact ⟨w', rfl⟩
  | cons w2 ws' => exact ⟨w' ++ ' ' :: joinSpace (w2 :: ws'), rfl⟩

theorem joinSpace_last : ∀ (ws : List (List Char)), ws ≠ [] →
    (∀ u ∈ ws, u ≠ []) →
    ∃ t' d, joinSpace ws = t' ++ [d] ∧ ∃ w1 ∈ ws, d ∈ w1 := by
  intro ws
  induction ws with
  | nil => intro h; exact absurd rfl h
  | cons w ws' ih =>
    intro _ hne
    cases ws' with
    | nil =>
      have hw : w ≠ [] := hne w (by simp)
      refine ⟨w.dropLast, w.getLast hw, ?_, w, by simp, List.getLast_mem hw⟩
      rw [show joinSpace [w] = w from rfl]
      exact (List.dropLast_append_getLast hw).symm
    | cons w2 ws'' =>
      obtain ⟨t', d, hj, w1, hw1, hd⟩ :=
        ih (by simp) (fun u hu => hne u (by simp [hu]))
      refine ⟨w ++ ' ' :: t', d, ?_, w1, by simp [hw1], hd⟩
      rw [show joinSpace (w :: w2 :: ws'') = w ++ ' ' :: joinSpace (w2 :: ws'')
          from rfl, hj]
      simp

theorem pyStrip_eq_self (l : List Char)
    (h1 : ∀ c t, l = c :: t → pyIsSpace c = false)
    (h2 : ∀ t d, l = t ++ [d] → pyIsSpace d = false) :
    pyStrip l = l := by
  cases l with
  | nil => rfl
  | cons c t =>
    unfold pyStrip dropTrailing
    rw [List.dropWhile_cons, if_neg (by simp [h1 c t rfl])]
    obtain ⟨t', d, heq⟩ : ∃ t' d, c :: t = t' ++ [d] :=
      ⟨(c :: t).dropLast, (c :: t).getLast (by simp),
        (List.dropLast_append_getLast (by simp)).symm⟩
    rw [heq, List.reverse_append]
    show ((([d].reverse) ++ t'.reverse).dropWhile pyIsSpace).reverse = _
    rw [List.reverse_singleton, List.singleton_append, List.dropWhile_cons,
      if_neg (by simp [h2 t' d heq])]
    simp

theorem no_key_char (l : List Char) (hl : ∀ c ∈ l, goodChar c = true ∨ c = ' ')
    (k : Char) (hkg : goodChar k = false) (hks : k ≠ ' ') : ∀ c ∈ l, c ≠ k := by
  intro c hc he
  rcases hl c hc with hg | hs
  · rw [he, hkg] at hg
    exact absurd hg (by simp)
  · rw [he] at hs
    exact hks hs

theorem replPairs_fix (l : List Char)
    (hl : ∀ c ∈ l, goodChar c = true ∨ c = ' ') :
    ∀ p ∈ replPairs, pyReplace l p.1 p.2 = l := by
  intro p hp
  simp only [replPairs, List.mem_cons, List.not_mem_nil, or_false] at hp
  rcases hp with rfl | rfl | rfl | rfl | rfl | rfl | rfl | rfl | rfl | rfl | rfl
  · exact pyReplaceFuel_self _ _ _
  · exact pyReplaceFuel_not_mem _ _ (show '\n' ∈ brokenKey by decide) _ _
      (no_key_char l hl '\n' (by decide) (by decide))
  · exact pyReplaceFuel_not_mem _ _ (show '–' ∈ ['–'] by decide) _ _
      (no_key_char l hl '–' (by decide) (by decide))
  · exact pyReplaceFuel_not_mem _ _ (show '—' ∈ ['—'] by decide) _ _
      (no_key_char l hl '—' (by decide) (by decide))
  · exact pyReplaceFuel_not_mem _ _ (show '…' ∈ ['…'] by decide) _ _
      (no_key_char l hl '…' (by decide) (by decide))
  · exact pyReplaceFuel_not_mem _ _ (show '​' ∈ ['​'] by decide) _ _
      (no_key_char l hl '​' (by decide) (by decide))
  · exact pyReplaceFuel_not_mem _ _ (show '‌' ∈ ['‌'] by decide) _ _
      (no_key_char l hl '‌' (by decide) (by decide))
  · exact pyReplaceFuel_not_mem _ _ (show '‍' ∈ ['‍'] by decide) _ _
      (no_key_char l hl '‍' (by decide) (by decide))
  · exact pyReplaceFuel_not_mem _ _ (show '﻿' ∈ ['﻿'] by decide) _ _
      (no_key_char l hl '﻿' (by decide) (by decide))
  · exact pyReplaceFuel_not_mem _ _ (show '\r' ∈ ['\r'] by decide) _ _
      (no_key_char l hl '\r' (by decide) (by decide))
  · exact pyReplaceFuel_not_mem _ _ (show '\t' ∈ ['\t'] by decide) _ _
      (no_key_char l hl '\t' (by decide) (by decide))

theorem foldl_pyReplace_id : ∀ (ps : List (List Char × List Char)) (l : List Char),
    (∀ p ∈ ps, pyReplace l p.1 p.2 = l) →
    ps.foldl (fun s p => pyReplace s p.1 p.2) l = l := by
  intro ps
  induction ps with
  | nil => intro l _; rfl
  | cons p ps' ih =>
    intro l h
    rw [List.foldl_cons, h p (by simp)]
    exact ih l (fun q hq => h q (by simp [hq]))

theorem replaceAll_id (l : List Char)
    (h : ∀ c ∈ l, goodChar c = true ∨ c = ' ') : replaceAll l = l :=
  foldl_pyReplace_id replPairs l (fun p hp => replPairs_fix l h p hp)

theorem clean_text_words (ws : List (List Char))
    (h : ∀ w ∈ ws, w ≠ [] ∧ ∀ c ∈ w, goodChar c = true) :
    clean_text (String.mk (joinSpace ws)) = String.mk (joinSpace ws) := by
  by_cases hemp : String.mk (joinSpace ws) = ""
  · rw [hemp]
    rfl
  · unfold clean_text
    rw [if_neg hemp]
    show String.mk (normSpace ((replaceAll (pyStrip (joinSpace ws))).filter
      allowedChar)) = _
    have hws_ne : ws ≠ [] := by
      intro h0
      subst h0
      exact hemp rfl
    have hne : ∀ w ∈ ws, w ≠ [] := fun w hw => (h w hw).1
    have hgood : ∀ w ∈ ws, ∀ c ∈ w, goodChar c = true := fun w hw => (h w hw).2
    have hnospace : ∀ w ∈ ws, ∀ c ∈ w, pyIsSpace c = false := by
      intro w hw c hc
      have hg := hgood w hw c hc
      unfold goodChar at hg
      simp only [Bool.and_eq_true, Bool.not_eq_true'] at hg
      exact hg.2
    have hallow : ∀ w ∈ ws, ∀ c ∈ w, allowedChar c = true := by
      intro w hw c hc
      have hg := hgood w hw c hc
      unfold goodChar at hg
      simp only [Bool.and_eq_true, Bool.not_eq_true'] at hg
      exact hg.1
    have hstrip : pyStrip (joinSpace ws) = joinSpace ws := by
      refine pyStrip_eq_self _ ?_ ?_
      · intro c t heq
        obtain ⟨w, ws', rfl⟩ : ∃ w ws', ws = w :: ws' := by
          cases ws with
          | nil => exact absurd rfl hws_ne
          | cons w ws' => exact ⟨w, ws', rfl⟩
        obtain ⟨c0, w', rfl⟩ : ∃ c0 w', w = c0 :: w' := by
          cases w with
          | nil => exact absurd rfl (hne [] (by simp))
          | cons c0 w' => exact ⟨c0, w', rfl⟩
        obtain ⟨t0, ht0⟩ := joinSpace_head c0 w' ws'
        rw [ht0] at heq
        injection heq with heqc _
        rw [← heqc]
        exact hnospace (c0 :: w') (by simp) c0 (by simp)
      · intro t d heq
        obtain ⟨t', d', hj, w1, hw1, hd⟩ := joinSpace_last ws hws_ne hne
        rw [hj] at heq
        have : d = d' := by
          have h5 := congrArg List.getLast? heq
          rw [List.getLast?_concat, List.getLast?_concat] at h5
          injection h5 with h5
          exact h5.symm
        rw [this]
        exact hnospace w1 hw1 d' hd
    have hrep : replaceAll (joinSpace ws) = joinSpace ws := by
      refine replaceAll_id _ ?_
      intro c hc
      rcases mem_joinSpace ws c hc with ⟨w, hw, hcw⟩ | hsp
      · exact Or.inl (hgood w hw c hcw)
      · exact Or.inr hsp
    have hfil : (joinSpace ws).filter allowedChar = joinSpace ws := by
      rw [List.filter_eq_self]
      intro c hc
      rcases mem_joinSpace ws c hc with ⟨w, hw, hcw⟩ | hsp
      · exact hallow w hw c hcw
      · rw [hsp]
        decide
    have hnorm : normSpace (joinSpace ws) = joinSpace ws := by
      unfold normSpace
      rw [pySplit_joinSpace ws (fun w hw => ⟨hne w hw, hnospace w hw⟩)]
    rw [hstrip, hrep, hfil, hnorm]

/-- C9: the text sanitizer is idempotent — sanitizing twice equals sanitizing
once, for every input string. -/
theorem c9_sanitize_idempotent (s : String) :
    clean_text (clean_text s) = clean_text s := by
  by_cases hs : s = ""
  · rw [hs]
    rfl
  · have hform : clean_text s = String.mk (joinSpace (pySplit
        ((replaceAll (pyStrip s.data)).filter allowedChar))) := by
      unfold clean_text
      rw [if_neg hs]
      rfl
    have hwords : ∀ w ∈ pySplit ((replaceAll (pyStrip s.data)).filter allowedChar),
        w ≠ [] ∧ ∀ c ∈ w, goodChar c = true := by
      intro w hw
      obtain ⟨hne, hmem⟩ := wordsAux_words _ [] (by simp) w hw
      refine ⟨hne, ?_⟩
      intro c hc
      obtain ⟨hsp, hin⟩ := hmem c hc
      rcases hin with hin | hin
      · have hall : allowedChar c = true := List.of_mem_filter hin
        unfold goodChar
        simp [hall, hsp]
      · simp at hin
    rw [hform]
    exact clean_text_words _ hwords

theorem toNat_ofNat_valid (n : Nat) (h : n < 0xd800) : (Char.ofNat n).toNat = n := by
  rw [Char.ofNat, dif_pos (by left; omega)]
  simp [Char.toNat, Char.ofNatAux, UInt32.toNat, BitVec.toNat_ofNatLt]

theorem pyLower_toNat_upper {c : Char}
    (h : (0x41 ≤ c.toNat ∧ c.toNat ≤ 0x5a) ∨
      (0xc0 ≤ c.toNat ∧ c.toNat ≤ 0xde ∧ c.toNat ≠ 0xd7)) :
    (pyLower c).toNat = c.toNat + 32 := by
  unfold pyLower
  rcases h with h | h
  · rw [if_pos h]
    exact toNat_ofNat_valid _ (by omega)
  · rw [if_neg (by omega), if_pos h]
    exact toNat_ofNat_valid _ (by omega)

theorem pyLower_id {c : Char}
    (h1 : ¬(0x41 ≤ c.toNat ∧ c.toNat ≤ 0x5a))
    (h2 : ¬(0xc0 ≤ c.toNat ∧ c.toNat ≤ 0xde ∧ c.toNat ≠ 0xd7)) :
    pyLower c = c := by
  unfold pyLower
  rw [if_neg h1, if_neg h2]

theorem pyLower_idem (c : Char) : pyLower (pyLower c) = pyLower c := by
  by_cases h1 : (0x41 ≤ c.toNat ∧ c.toNat ≤ 0x5a)
  · have ht := pyLower_toNat_upper (Or.inl h1)
    exact pyLower_id (by omega) (by omega)
  · by_cases h2 : (0xc0 ≤ c.toNat ∧ c.toNat ≤ 0xde ∧ c.toNat ≠ 0xd7)
    · have ht := pyLower_toNat_upper (Or.inr h2)
      exact pyLower_id (by omega) (by omega)
    · rw [pyLower_id h1 h2, pyLower_id h1 h2]

theorem pyLower_eq_underscore {c : Char} (h : pyLower c = '_') : c = '_' := by
  by_cases h1 : (0x41 ≤ c.toNat ∧ c.toNat ≤ 0x5a)
  · have ht := pyLower_toNat_upper (Or.inl h1)
    rw [h] at ht
    exact absurd ht (by intro hx; simp at hx; omega)
  · by_cases h2 : (0xc0 ≤ c.toNat ∧ c.toNat ≤ 0xde ∧ c.toNat ≠ 0xd7)
    · have ht := pyLower_toNat_upper (Or.inr h2)
      rw [h] at ht
      exact absurd ht (by intro hx; simp at hx; omega)
    · rw [← pyLower_id h1 h2]
      exact h

theorem pyLower_alnum {d : Char} (h : pyIsAlnum d = true) :
    pyIsAlnum (pyLower d) = true := by
  unfold pyIsAlnum at h ⊢
  simp only [Bool.or_eq_true, Bool.and_eq_true, decide_eq_true_eq] at h ⊢
  by_cases h1 : (0x41 ≤ d.toNat ∧ d.toNat ≤ 0x5a)
  · have ht := pyLower_toNat_upper (Or.inl h1)
    rw [ht]
    omega
  · by_cases h2 : (0xc0 ≤ d.toNat ∧ d.toNat ≤ 0xde ∧ d.toNat ≠ 0xd7)
    · have ht := pyLower_toNat_upper (Or.inr h2)
      rw [ht]
      omega
    · rw [pyLower_id h1 h2]
      exact h

theorem pyLower_nordic : ∀ d ∈ nordicChars, pyLower d ∈ (['æ', 'ø', 'å'] : List Char) := by
  decide

theorem map_id_of_fix {α : Type} (l : List α) (f : α → α)
    (h : ∀ a ∈ l, f a = a) : l.map f = l := by
  rw [List.map_congr_left h]
  exact List.map_id l

theorem hasDD_append_right : ∀ (a b : List Char), hasDD b = true →
    hasDD (a ++ b) = true := by
  intro a
  induction a with
  | nil => intro b h; simpa using h
  | cons x a' ih =>
    intro b h
    have hrec := ih b h
    rw [List.cons_append]
    cases hab : a' ++ b with
    | nil => rw [hab] at hrec; simp [hasDD] at hrec
    | cons y rest =>
      rw [hab] at hrec
      show hasDD (x :: y :: rest) = true
      simp only [hasDD, Bool.or_eq_true]
      exact Or.inr hrec

theorem hasDD_append_left : ∀ (a b : List Char), hasDD a = true →
    hasDD (a ++ b) = true := by
  intro a
  induction a using hasDD.induct with
  | case1 => intro b h; simp [hasDD] at h
  | case2 c => intro b h; simp [hasDD] at h
  | case3 c d rest ih =>
    intro b h
    simp only [hasDD, Bool.or_eq_true] at h
    rw [List.cons_append, List.cons_append]
    show hasDD (c :: d :: (rest ++ b)) = true
    simp only [hasDD, Bool.or_eq_true]
    rcases h with h | h
    · exact Or.inl h
    · exact Or.inr (by simpa [List.cons_append] using ih b h)

theorem hasDD_map_pyLower : ∀ l : List Char,
    hasDD (l.map pyLower) = true → hasDD l = true := by
  intro l
  induction l using hasDD.induct with
  | case1 => intro h; simp [hasDD] at h
  | case2 c => intro h; simp [hasDD] at h
  | case3 c d rest ih =>
    intro h
    simp only [List.map_cons] at h
    simp only [hasDD, Bool.or_eq_true] at h ⊢
    rcases h with h | h
    · simp only [Bool.and_eq_true, decide_eq_true_eq] at h
      exact Or.inl (by
        simp only [Bool.and_eq_true, decide_eq_true_eq]
        exact ⟨pyLower_eq_underscore h.1, pyLower_eq_underscore h.2⟩)
    · exact Or.inr (ih (by simpa using h))

theorem replaceDD_subset : ∀ (l : List Char) (c : Char), c ∈ replaceDD l → c ∈ l := by
  intro l
  induction l using replaceDD.induct with
  | case1 => intro c h; simpa [replaceDD] using h
  | case2 x => intro c h; simpa [replaceDD] using h
  | case3 x y rest hxy ih =>
    intro c h
    rw [replaceDD, if_pos hxy] at h
    rcases List.mem_cons.mp h with rfl | h
    · exact (by rw [hxy.1]; simp)
    · simp [ih c h]
  | case4 x y rest hxy ih =>
    intro c h
    rw [replaceDD, if_neg hxy] at h
    rcases List.mem_cons.mp h with rfl | h
    · simp
    · have := ih c h
      rcases List.mem_cons.mp this with rfl | h2
      · simp
      · simp [h2]

theorem collapseDDFuel_subset : ∀ (n : Nat) (l : List Char) (c : Char),
    c ∈ collapseDDFuel n l → c ∈ l := by
  intro n
  induction n with
  | zero => intro l c h; simpa [collapseDDFuel] using h
  | succ n ih =>
    intro l c h
    rw [collapseDDFuel] at h
    split at h
    · exact replaceDD_subset l c (ih _ c h)
    · exact h

theorem collapseDDFuel_noDD : ∀ (n : Nat) (l : List Char), l.length ≤ n →
    hasDD (collapseDDFuel n l) = false := by
  intro n
  induction n with
  | zero =>
    intro l hl
    have : l = [] := by
      cases l with
      | nil => rfl
      | cons c t => simp at hl
    subst this
    rfl
  | succ n ih =>
    intro l hl
    rw [collapseDDFuel]
    by_cases h : hasDD l = true
    · rw [if_pos h]
      exact ih _ (by have := length_replaceDD_lt l h; omega)
    · rw [if_neg h]
      simpa using h

theorem collapseDDFuel_id (n : Nat) (l : List Char) (h : hasDD l = false) :
    collapseDDFuel n l = l := by
  cases n with
  | zero => rfl
  | succ n => rw [collapseDDFuel, if_neg (by simp [h])]

theorem dropWhile_head_not {p : Char → Bool} : ∀ (l : List Char) (c : Char)
    (t : List Char), l.dropWhile p = c :: t → p c = false := by
  intro l
  induction l with
  | nil => intro c t h; simp at h
  | cons a l' ih =>
    intro c t h
    rw [List.dropWhile_cons] at h
    split at h
    · exact ih c t h
    · rename_i ha
      injection h with h1 _
      rw [← h1]
      simpa using ha

theorem dropWhile_prefix_exists {p : Char → Bool} : ∀ l : List Char,
    ∃ a, a ++ l.dropWhile p = l := by
  intro l
  induction l with
  | nil => exact ⟨[], rfl⟩
  | cons c t ih =>
    rw [List.dropWhile_cons]
    split
    · obtain ⟨a, ha⟩ := ih
      exact ⟨c :: a, by rw [List.cons_append, ha]⟩
    · exact ⟨[], rfl⟩

theorem dropTrailing_prefix_exists (p : Char → Bool) (l : List Char) :
    ∃ q, dropTrailing p l ++ q = l := by
  obtain ⟨a, ha⟩ := dropWhile_prefix_exists (p := p) l.reverse
  refine ⟨a.reverse, ?_⟩
  unfold dropTrailing
  have := congrArg List.reverse ha
  rw [List.reverse_append, List.reverse_reverse] at this
  exact this

theorem dropTrailing_last_not {p : Char → Bool} (l t : List Char) (d : Char)
    (h : dropTrailing p l = t ++ [d]) : p d = false := by
  unfold dropTrailing at h
  have h2 := congrArg List.reverse h
  rw [List.reverse_reverse, List.reverse_append] at h2
  simp only [List.reverse_singleton, List.singleton_append] at h2
  exact dropWhile_head_not _ d t.reverse h2

theorem mem_dropTrailing {p : Char → Bool} (l : List Char) (c : Char)
    (h : c ∈ dropTrailing p l) : c ∈ l := by
  obtain ⟨q, hq⟩ := dropTrailing_prefix_exists p l
  rw [← hq]
  exact List.mem_append_left q h

theorem dropWhile_id_of_head {p : Char → Bool} (l : List Char)
    (h : ∀ c t, l = c :: t → p c = false) : l.dropWhile p = l := by
  cases l with
  | nil => rfl
  | cons c t => rw [List.dropWhile_cons, if_neg (by simp [h c t rfl])]

theorem dropTrailing_id_of_last (p : Char → Bool) (l : List Char)
    (h : ∀ t d, l = t ++ [d] → p d = false) : dropTrailing p l = l := by
  cases hl : l with
  | nil => rfl
  | cons c t =>
    have hne : l ≠ [] := by rw [hl]; simp
    have hdec : l = l.dropLast ++ [l.getLast hne] :=
      (List.dropLast_append_getLast hne).symm
    have hp := h l.dropLast (l.getLast hne) hdec
    rw [← hl]
    unfold dropTrailing
    rw [hdec, List.reverse_append]
    simp only [List.reverse_singleton, List.singleton_append]
    rw [List.dropWhile_cons, if_neg (by simp [hp])]
    simp

/-- The character-keep predicate of `clean_label_name`'s filter. -/
def labelKeep (c : Char) : Bool := pyIsAlnum c || c = '_' || c ∈ nordicChars

/-- The characters a label can contain after `clean_label_name` on Latin-1
input: a case-fixed alphanumeric, an underscore, or a lowercase Nordic
letter. -/
def labelOutChar (c : Char) : Prop :=
  (pyIsAlnum c = true ∧ pyLowerChar c = [c]) ∨ c = '_' ∨
    c ∈ (['æ', 'ø', 'å'] : List Char)

theorem flatMap_eq_map_pyLower (l : List Char)
    (h : ∀ c ∈ l, c.toNat ≠ 0x130) : l.flatMap pyLowerChar = l.map pyLower := by
  induction l with
  | nil => rfl
  | cons c rest ih =>
    rw [List.flatMap_cons, List.map_cons, ih (fun d hd => h d (by simp [hd]))]
    rw [show pyLowerChar c = [pyLower c] from by
      rw [pyLowerChar, if_neg (h c (by simp))]]
    rfl

theorem flatMap_pyLowerChar_fix (l : List Char)
    (h : ∀ c ∈ l, pyLowerChar c = [c]) : l.flatMap pyLowerChar = l := by
  induction l with
  | nil => rfl
  | cons c rest ih =>
    rw [List.flatMap_cons, h c (by simp), ih (fun d hd => h d (by simp [hd]))]
    rfl

theorem labelOutChar_of_keep {d : Char} (h : labelKeep d = true)
    (hb : d.toNat ≤ 0xff) : labelOutChar (pyLower d) := by
  unfold labelKeep at h
  simp only [Bool.or_eq_true, decide_eq_true_eq] at h
  rcases h with (h | h) | h
  · refine Or.inl ⟨pyLower_alnum h, ?_⟩
    have hne : (pyLower d).toNat ≠ 0x130 := by
      by_cases h1 : (0x41 ≤ d.toNat ∧ d.toNat ≤ 0x5a)
      · have := pyLower_toNat_upper (Or.inl h1)
        omega
      · by_cases h2 : (0xc0 ≤ d.toNat ∧ d.toNat ≤ 0xde ∧ d.toNat ≠ 0xd7)
        · have := pyLower_toNat_upper (Or.inr h2)
          omega
        · rw [pyLower_id h1 h2]
          omega
    rw [pyLowerChar, if_neg hne, pyLower_idem]
  · subst h
    exact Or.inr (Or.inl (by decide))
  · exact Or.inr (Or.inr (pyLower_nordic d h))

theorem labelOutChar_not_space {c : Char} (h : labelOutChar c) : c ≠ ' ' := by
  rcases h with ⟨h1, _⟩ | h | h
  · intro he
    subst he
    exact absurd h1 (by decide)
  · intro he
    rw [he] at h
    exact absurd h (by decide)
  · intro he
    rw [he] at h
    exact absurd h (by decide)

theorem labelOutChar_not_dash {c : Char} (h : labelOutChar c) : c ≠ '-' := by
  rcases h with ⟨h1, _⟩ | h | h
  · intro he
    subst he
    exact absurd h1 (by decide)
  · intro he
    rw [he] at h
    exact absurd h (by decide)
  · intro he
    rw [he] at h
    exact absurd h (by decide)

theorem labelOutChar_keep {c : Char} (h : labelOutChar c) : labelKeep c = true := by
  unfold labelKeep
  simp only [Bool.or_eq_true, decide_eq_true_eq]
  rcases h with ⟨h1, _⟩ | h | h
  · exact Or.inl (Or.inl h1)
  · exact Or.inl (Or.inr h)
  · refine Or.inr ?_
    simp only [List.mem_cons, List.not_mem_nil, or_false] at h
    rcases h with h | h | h
    all_goals simp [h, nordicChars]

theorem labelOutChar_lower_fix {c : Char} (h : labelOutChar c) :
    pyLowerChar c = [c] := by
  rcases h with ⟨_, h2⟩ | h | h
  · exact h2
  · rw [h]; decide
  · simp only [List.mem_cons, List.not_mem_nil, or_false] at h
    rcases h with h | h | h
    all_goals rw [h]
    all_goals decide

theorem clean_label_name_eq (s : String) (hs : ¬s = "") :
    clean_label_name s = String.mk ((dropTrailing (fun c => c = '_')
      ((collapseDD (((s.data.map (fun c => if c = ' ' then '_' else c)).map
        (fun c => if c = '-' then '_' else c)).filter labelKeep)).dropWhile
        (fun c => c = '_'))).flatMap pyLowerChar) := by
  unfold clean_label_name
  rw [if_neg hs]
  rfl

theorem label_out_props (l2 : List Char) (hl2 : ∀ c ∈ l2, labelKeep c = true)
    (hl2b : ∀ c ∈ l2, c.toNat ≤ 0xff) :
    (∀ c ∈ (dropTrailing (fun c => c = '_')
        ((collapseDD l2).dropWhile (fun c => c = '_'))).flatMap pyLowerChar,
      labelOutChar c) ∧
    clean_label_name (String.mk ((dropTrailing (fun c => c = '_')
        ((collapseDD l2).dropWhile (fun c => c = '_'))).flatMap pyLowerChar))
      = String.mk ((dropTrailing (fun c => c = '_')
        ((collapseDD l2).dropWhile (fun c => c = '_'))).flatMap pyLowerChar) := by
  have hc3 : hasDD (collapseDD l2) = false :=
    collapseDDFuel_noDD l2.length l2 (Nat.le_refl _)
  set l' := (collapseDD l2).dropWhile (fun c => c = '_') with hl'
  set c4 := dropTrailing (fun c => c = '_') l' with hc4
  have hmem4 : ∀ c ∈ c4, c ∈ l2 := by
    intro c hc
    have h1 : c ∈ l' := by
      rw [hc4] at hc
      exact mem_dropTrailing l' c hc
    obtain ⟨a, ha⟩ := dropWhile_prefix_exists
      (p := fun c => c = '_') (collapseDD l2)
    rw [← hl'] at ha
    have h2 : c ∈ collapseDD l2 := by
      rw [← ha]
      exact List.mem_append_right a h1
    exact collapseDDFuel_subset _ _ c h2
  have hc4b : ∀ c ∈ c4, c.toNat ≤ 0xff := fun c hc => hl2b c (hmem4 c hc)
  have hfm : c4.flatMap pyLowerChar = c4.map pyLower :=
    flatMap_eq_map_pyLower c4 (fun c hc => by have := hc4b c hc; omega)
  rw [hfm]
  set out := c4.map pyLower with hout
  have hout_chars : ∀ c ∈ out, labelOutChar c := by
    intro c hc
    rw [hout] at hc
    obtain ⟨d, hd, rfl⟩ := List.mem_map.mp hc
    exact labelOutChar_of_keep (hl2 d (hmem4 d hd)) (hc4b d hd)
  have hnoDD_l' : hasDD l' = false := by
    obtain ⟨a, ha⟩ := dropWhile_prefix_exists
      (p := fun c => c = '_') (collapseDD l2)
    rw [← hl'] at ha
    by_contra h
    have h' : hasDD l' = true := by simpa using h
    have h2 := hasDD_append_right a l' h'
    rw [ha] at h2
    exact absurd h2 (by simp [hc3])
  have hnoDD_c4 : hasDD c4 = false := by
    obtain ⟨q, hq⟩ := dropTrailing_prefix_exists (fun c => c = '_') l'
    rw [← hc4] at hq
    by_contra h
    have h' : hasDD c4 = true := by simpa using h
    have h2 := hasDD_append_left c4 q h'
    rw [hq] at h2
    exact absurd h2 (by simp [hnoDD_l'])
  have hnoDD_out : hasDD out = false := by
    by_contra h
    have h' : hasDD (c4.map pyLower) = true := by
      rw [← hout]
      simpa using h
    exact absurd (hasDD_map_pyLower c4 h') (by simp [hnoDD_c4])
  have hhead : ∀ c t, out = c :: t → ¬c = '_' := by
    intro c t heq hceq
    subst hceq
    rw [hout] at heq
    cases hc4e : c4 with
    | nil => rw [hc4e] at heq; simp at heq
    | cons d0 t0 =>
      rw [hc4e] at heq
      simp only [List.map_cons] at heq
      injection heq with h1 _
      have hd0 : d0 = '_' := pyLower_eq_underscore h1
      obtain ⟨q, hq⟩ := dropTrailing_prefix_exists (fun c => c = '_') l'
      rw [← hc4] at hq
      rw [hc4e] at hq
      have hl'eq : (collapseDD l2).dropWhile (fun c => c = '_')
          = d0 :: (t0 ++ q) := by
        rw [← hl', ← hq]
        simp
      have hp := dropWhile_head_not (collapseDD l2) d0 (t0 ++ q) hl'eq
      rw [hd0] at hp
      simp at hp
  have hlast : ∀ t d, out = t ++ [d] → ¬d = '_' := by
    intro t d heq hdeq
    subst hdeq
    rw [hout] at heq
    have hc4ne : c4 ≠ [] := by
      intro h0
      rw [h0] at heq
      simp at heq
    have hdec : c4 = c4.dropLast ++ [c4.getLast hc4ne] :=
      (List.dropLast_append_getLast hc4ne).symm
    have heq2 : c4.map pyLower
        = c4.dropLast.map pyLower ++ [pyLower (c4.getLast hc4ne)] := by
      conv_lhs => rw [hdec]
      simp
    rw [heq2] at heq
    have hdlast : pyLower (c4.getLast hc4ne) = '_' := by
      have h5 := congrArg List.getLast? heq
      rw [List.getLast?_concat, List.getLast?_concat] at h5
      injection h5
    have hlne : dropTrailing (fun c => c = '_') l'
        = c4.dropLast ++ [c4.getLast hc4ne] := by
      rw [← hc4]
      exact hdec
    have hlast_ne := dropTrailing_last_not l' c4.dropLast (c4.getLast hc4ne) hlne
    rw [pyLower_eq_underscore hdlast] at hlast_ne
    simp at hlast_ne
  refine ⟨hout_chars, ?_⟩
  by_cases houtn : out = []
  · rw [houtn]
    rfl
  · have hmkne : ¬String.mk out = "" := by
      intro he
      apply houtn
      have hdd := congrArg String.data he
      simpa using hdd
    rw [clean_label_name_eq _ hmkne]
    have hdata : (String.mk out).data = out := rfl
    rw [hdata]
    rw [map_id_of_fix out _ (fun c hc => by
      rw [if_neg (labelOutChar_not_space (hout_chars c hc))])]
    rw [map_id_of_fix out _ (fun c hc => by
      rw [if_neg (labelOutChar_not_dash (hout_chars c hc))])]
    rw [List.filter_eq_self.mpr (fun c hc => labelOutChar_keep (hout_chars c hc))]
    have hcoll : collapseDD out = out := collapseDDFuel_id _ _ hnoDD_out
    rw [hcoll]
    rw [dropWhile_id_of_head out (fun c t h => by simp [hhead c t h])]
    rw [dropTrailing_id_of_last _ out (fun t d h => by simp [hlast t d h])]
    rw [flatMap_pyLowerChar_fix out (fun c hc => labelOutChar_lower_fix (hout_chars c hc))]

/-- C10 counterexample: on the dotted capital I (U+0130), whose Python
lowercase mapping expands to `i` followed by the combining dot above U+0307,
`clean_label_name` is NOT idempotent — a second pass strips the combining
mark — and its output contains U+0307, which is neither an alphanumeric
fixed by lowercasing, an underscore, nor an allow-listed Nordic letter. -/
theorem c10_unicode_counterexample :
    clean_label_name (clean_label_name (String.mk ['İ']))
      ≠ clean_label_name (String.mk ['İ']) ∧
    '̇' ∈ (clean_label_name (String.mk ['İ'])).data ∧
    ¬labelOutChar '̇' := by
  refine ⟨by decide, by decide, ?_⟩
  unfold labelOutChar
  decide

/-- C10 (amended): for input whose characters lie in the Latin-1 range
(U+0000-U+00FF) — where each character lowercases to a single character —
the label synthesizer is idempotent, and every character of its output is a
lowercase-fixed alphanumeric, an underscore, or one of the lowercase Nordic
letters of the allow-list.  Outside that range idempotence fails: the dotted
capital I lowercases to `i` plus a combining mark that a second pass strips
(see the counterexample above). -/
theorem c10_label_idempotent_charset (s : String)
    (hb : ∀ c ∈ s.data, c.toNat ≤ 0xff) :
    clean_label_name (clean_label_name s) = clean_label_name s ∧
    ∀ c ∈ (clean_label_name s).data, labelOutChar c := by
  by_cases hs : s = ""
  · subst hs
    exact ⟨rfl, by intro c hc; simp [clean_label_name] at hc⟩
  · rw [clean_label_name_eq s hs]
    have hl2 : ∀ c ∈ ((s.data.map (fun c => if c = ' ' then '_' else c)).map
        (fun c => if c = '-' then '_' else c)).filter labelKeep,
        labelKeep c = true := fun c hc => List.of_mem_filter hc
    have hl2b : ∀ c ∈ ((s.data.map (fun c => if c = ' ' then '_' else c)).map
        (fun c => if c = '-' then '_' else c)).filter labelKeep,
        c.toNat ≤ 0xff := by
      intro c hc
      have hc' := List.mem_of_mem_filter hc
      obtain ⟨d, hd, rfl⟩ := List.mem_map.mp hc'
      obtain ⟨e, he, rfl⟩ := List.mem_map.mp hd
      have hbe := hb e he
      by_cases h1 : e = ' '
      · rw [if_pos h1]
        by_cases h2 : ('_' : Char) = '-'
        · rw [if_pos h2]; decide
        · rw [if_neg h2]; decide
      · rw [if_neg h1]
        by_cases h2 : e = '-'
        · rw [if_pos h2]; decide
        · rw [if_neg h2]; exact hbe
    obtain ⟨h1, h2⟩ := label_out_props _ hl2 hl2b
    exact ⟨h2, h1⟩

/-- Witness for the amended C10 at the Latin-1 input `My-Label Ær`. -/
theorem c10_label_idempotent_charset_witness :
    clean_label_name (clean_label_name "My-Label Ær")
        = clean_label_name "My-Label Ær" ∧
    ∀ c ∈ (clean_label_name "My-Label Ær").data, labelOutChar c :=
  c10_label_idempotent_charset "My-Label Ær" (by decide)

/-- The identifiers of all records, in order. -/
def taskIds (tasks : List (List String)) : List String := tasks.map taskIdF

theorem lookupIndent_cons (k0 : String) (v0 : Nat) (rest : List (String × Nat))
    (k' : String) :
    lookupIndent ((k0, v0) :: rest) k'
      = if k0 = k' then some v0 else lookupIndent rest k' := by
  simp only [lookupIndent, List.find?]
  by_cases h : k0 = k'
  · simp [h]
  · simp [h]

theorem lookup_dinsert (acc : List (String × Nat)) (k : String) (v : Nat)
    (k' : String) :
    lookupIndent (dinsert acc k v) k' = if k' = k then some v else lookupIndent acc k' := by
  induction acc with
  | nil =>
    rw [show dinsert [] k v = [(k, v)] from rfl, lookupIndent_cons]
    by_cases h : k' = k
    · rw [if_pos h.symm, if_pos h]
    · rw [if_neg (fun he => h he.symm), if_neg h]
  | cons kv rest ih =>
    obtain ⟨k0, v0⟩ := kv
    rw [dinsert]
    by_cases h0 : k0 = k
    · rw [if_pos h0]
      subst h0
      rw [lookupIndent_cons]
      by_cases h : k0 = k'
      · rw [if_pos h, if_pos h.symm]
      · rw [if_neg h, if_neg (fun he => h he.symm), lookupIndent_cons, if_neg h]
    · rw [if_neg h0, lookupIndent_cons]
      by_cases h : k0 = k'
      · have hk'k : ¬k' = k := fun he => h0 (h.trans he)
        rw [if_pos h, if_neg hk'k, lookupIndent_cons, if_pos h]
      · rw [if_neg h, ih]
        by_cases h2 : k' = k
        · rw [if_pos h2, if_pos h2]
        · rw [if_neg h2, if_neg h2, lookupIndent_cons, if_neg h]

theorem lookup_none_iff (ind : List (String × Nat)) (k : String) :
    lookupIndent ind k = none ↔ k ∉ ind.map (·.1) := by
  induction ind with
  | nil => simp [lookupIndent]
  | cons kv rest ih =>
    obtain ⟨k0, v0⟩ := kv
    rw [lookupIndent_cons]
    by_cases h : k0 = k
    · subst h
      simp
    · rw [if_neg h]
      simp only [List.map_cons, List.mem_cons]
      rw [ih]
      constructor
      · intro hnone hmem
        rcases hmem with hm | hm
        · exact h hm.symm
        · exact hnone hm
      · intro hn
        exact fun hm => hn (Or.inr hm)

theorem frame_fold (child : String → List String) (f level : Nat) :
    ∀ (cs : List String) (acc : List (String × Nat)) (k : String),
      (∀ c ∈ cs, k ∉ visits child f c) →
      lookupIndent (cs.foldl (fun a c => set_indent_level child f c level a) acc) k
        = lookupIndent acc k := by
  have main : ∀ (f : Nat) (tid : String) (level : Nat) (acc : List (String × Nat))
      (k : String), k ∉ visits child f tid →
      lookupIndent (set_indent_level child f tid level acc) k = lookupIndent acc k := by
    intro f
    induction f with
    | zero => intro tid level acc k _; rfl
    | succ f ih =>
      intro tid level acc k hk
      rw [set_indent_level]
      have hkt : ¬k = tid := by
        intro h
        exact hk (by rw [h, visits]; exact List.mem_cons_self _ _)
      have hkc : ∀ c ∈ child tid, k ∉ visits child f c := by
        intro c hc hmem
        exact hk (by
          rw [visits]
          exact List.mem_cons_of_mem _ (List.mem_flatMap.mpr ⟨c, hc, hmem⟩))
      have hbase : lookupIndent (dinsert acc tid (min level 4)) k
          = lookupIndent acc k := by
        rw [lookup_dinsert, if_neg hkt]
      suffices hfold : ∀ (cs : List String) (acc' : List (String × Nat)),
          (∀ c ∈ cs, k ∉ visits child f c) →
          lookupIndent
            (cs.foldl (fun a c => set_indent_level child f c (level + 1) a) acc') k
            = lookupIndent acc' k by
        rw [hfold (child tid) _ hkc, hbase]
      intro cs
      induction cs with
      | nil => intro acc' _; rfl
      | cons c cs' ihc =>
        intro acc' hcs
        rw [List.foldl_cons, ihc _ (fun d hd => hcs d (by simp [hd])),
          ih c (level + 1) acc' k (hcs c (by simp))]
  intro cs
  induction cs with
  | nil => intro acc k _; rfl
  | cons c cs' ihc =>
    intro acc k hcs
    rw [List.foldl_cons, ihc _ k (fun d hd => hcs d (by simp [hd])),
      main f c level acc k (hcs c (by simp))]

theorem frame_visits (child : String → List String) (f : Nat) (tid : String)
    (level : Nat) (acc : List (String × Nat)) (k : String)
    (hk : k ∉ visits child f tid) :
    lookupIndent (set_indent_level child f tid level acc) k = lookupIndent acc k := by
  cases f with
  | zero => rfl
  | succ f =>
    rw [set_indent_level]
    have hkt : ¬k = tid := by
      intro h
      exact hk (by rw [h, visits]; exact List.mem_cons_self _ _)
    have hkc : ∀ c ∈ child tid, k ∉ visits child f c := by
      intro c hc hmem
      exact hk (by
        rw [visits]
        exact List.mem_cons_of_mem _ (List.mem_flatMap.mpr ⟨c, hc, hmem⟩))
    rw [frame_fold child f (level + 1) (child tid) _ k hkc,
      lookup_dinsert, if_neg hkt]

theorem visits_subset (child : String → List String) (S : String → Prop)
    (hS : ∀ x, S x → ∀ c ∈ child x, S c) :
    ∀ (f : Nat) (x : String), S x → ∀ y ∈ visits child f x, S y := by
  intro f
  induction f with
  | zero => intro x _ y hy; simp [visits] at hy
  | succ f ih =>
    intro x hx y hy
    rw [visits] at hy
    rcases List.mem_cons.mp hy with rfl | hy
    · exact hx
    · obtain ⟨c, hc, hyc⟩ := List.mem_flatMap.mp hy
      exact ih c (hS x hx c hc) y hyc

theorem visits_structure (child : String → List String) :
    ∀ (f : Nat) (x y : String), y ∈ visits child f x →
      y = x ∨ ∃ t, t ∈ visits child f x ∧ y ∈ child t := by
  intro f
  induction f with
  | zero => intro x y hy; simp [visits] at hy
  | succ f ih =>
    intro x y hy
    rw [visits] at hy
    rcases List.mem_cons.mp hy with rfl | hy
    · exact Or.inl rfl
    · obtain ⟨c, hc, hyc⟩ := List.mem_flatMap.mp hy
      rcases ih c y hyc with rfl | ⟨t, ht, hyt⟩
      · exact Or.inr ⟨x, by rw [visits]; exact List.mem_cons_self _ _, hc⟩
      · refine Or.inr ⟨t, ?_, hyt⟩
        rw [visits]
        exact List.mem_cons_of_mem _ (List.mem_flatMap.mpr ⟨c, hc, ht⟩)

theorem mem_childTasks {tasks : List (List String)} {x c : String} :
    c ∈ childTasks tasks x ↔
      ∃ q ∈ tasks, parentIdF q ≠ "" ∧ parentIdF q = x ∧ taskIdF q = c := by
  simp only [childTasks, List.mem_map, List.mem_filter, Bool.and_eq_true,
    decide_eq_true_eq]
  constructor
  · rintro ⟨q, ⟨hq, h1, h2⟩, h3⟩
    exact ⟨q, hq, by simpa using h1, h2, h3⟩
  · rintro ⟨q, hq, h1, h2, h3⟩
    exact ⟨q, ⟨hq, by simpa using h1, h2⟩, h3⟩

theorem mem_rootTaskIds {tasks : List (List String)} {r : String} :
    r ∈ rootTaskIds tasks ↔ ∃ q ∈ tasks, parentIdF q = "" ∧ taskIdF q = r := by
  simp only [rootTaskIds, List.mem_map, List.mem_filter, decide_eq_true_eq]
  constructor
  · rintro ⟨q, ⟨hq, h1⟩, h2⟩
    exact ⟨q, hq, h1, h2⟩
  · rintro ⟨q, hq, h1, h2⟩
    exact ⟨q, ⟨hq, h1⟩, h2⟩

theorem records_unique {tasks : List (List String)}
    (H1 : (tasks.map taskIdF).Nodup) :
    ∀ q ∈ tasks, ∀ q' ∈ tasks, taskIdF q = taskIdF q' → q = q' :=
  fun q hq q' hq' h => List.inj_on_of_nodup_map H1 hq hq' h

theorem unique_parent {tasks : List (List String)}
    (H1 : (tasks.map taskIdF).Nodup) {c x y : String}
    (hx : c ∈ childTasks tasks x) (hy : c ∈ childTasks tasks y) : x = y := by
  obtain ⟨q, hq, _, hqx, hqc⟩ := mem_childTasks.mp hx
  obtain ⟨q', hq', _, hqy, hqc'⟩ := mem_childTasks.mp hy
  have := records_unique H1 q hq q' hq' (by rw [hqc, hqc'])
  subst this
  rw [← hqx, hqy]

theorem root_not_child {tasks : List (List String)}
    (H1 : (tasks.map taskIdF).Nodup) {r x : String}
    (hr : r ∈ rootTaskIds tasks) (hc : r ∈ childTasks tasks x) : False := by
  obtain ⟨q, hq, hqp, hqr⟩ := mem_rootTaskIds.mp hr
  obtain ⟨q', hq', hqp', _, hqr'⟩ := mem_childTasks.mp hc
  have := records_unique H1 q hq q' hq' (by rw [hqr, hqr'])
  subst this
  exact hqp' hqp

theorem childTasks_sub_ids {tasks : List (List String)} {x c : String}
    (hc : c ∈ childTasks tasks x) : c ∈ taskIds tasks := by
  obtain ⟨q, hq, _, _, hqc⟩ := mem_childTasks.mp hc
  exact List.mem_map.mpr ⟨q, hq, hqc⟩

theorem rootTaskIds_sub_ids {tasks : List (List String)} {r : String}
    (hr : r ∈ rootTaskIds tasks) : r ∈ taskIds tasks := by
  obtain ⟨q, hq, _, hqr⟩ := mem_rootTaskIds.mp hr
  exact List.mem_map.mpr ⟨q, hq, hqr⟩

theorem childTasks_nodup {tasks : List (List String)}
    (H1 : (tasks.map taskIdF).Nodup) (x : String) :
    (childTasks tasks x).Nodup := by
  unfold childTasks
  exact List.Nodup.sublist ((List.filter_sublist tasks).map taskIdF) H1

theorem rootTaskIds_nodup {tasks : List (List String)}
    (H1 : (tasks.map taskIdF).Nodup) : (rootTaskIds tasks).Nodup := by
  unfold rootTaskIds
  exact List.Nodup.sublist ((List.filter_sublist tasks).map taskIdF) H1

theorem child_rank {tasks : List (List String)} {rank : String → Nat}
    (H2 : ∀ r ∈ tasks, ∀ p ∈ tasks, parentIdF r ≠ "" → parentIdF r = taskIdF p →
      rank (taskIdF p) < rank (taskIdF r))
    {x c : String} (hx : x ∈ taskIds tasks) (hc : c ∈ childTasks tasks x) :
    rank x < rank c := by
  obtain ⟨p, hp, hpx⟩ := List.mem_map.mp hx
  obtain ⟨q, hq, hq1, hq2, hq3⟩ := mem_childTasks.mp hc
  rw [← hpx, ← hq3]
  exact H2 q hq p hp hq1 (by rw [hq2, hpx])

theorem visits_rank_ge {tasks : List (List String)} {rank : String → Nat}
    (H2 : ∀ r ∈ tasks, ∀ p ∈ tasks, parentIdF r ≠ "" → parentIdF r = taskIdF p →
      rank (taskIdF p) < rank (taskIdF r))
    (f : Nat) (x : String) (hx : x ∈ taskIds tasks) :
    ∀ y ∈ visits (childTasks tasks) f x, rank x ≤ rank y ∧ y ∈ taskIds tasks := by
  refine visits_subset (childTasks tasks)
    (fun y => rank x ≤ rank y ∧ y ∈ taskIds tasks) ?_ f x ⟨Nat.le_refl _, hx⟩
  intro t ⟨hrt, hts⟩ c hc
  exact ⟨Nat.le_of_lt (Nat.lt_of_le_of_lt hrt (child_rank H2 hts hc)),
    childTasks_sub_ids hc⟩

theorem visits_disjoint {tasks : List (List String)} {rank : String → Nat}
    (H1 : (tasks.map taskIdF).Nodup)
    (H2 : ∀ r ∈ tasks, ∀ p ∈ tasks, parentIdF r ≠ "" → parentIdF r = taskIdF p →
      rank (taskIdF p) < rank (taskIdF r))
    (f : Nat) (e0 e1 : String)
    (hne : e0 ≠ e1) (he0 : e0 ∈ taskIds tasks) (he1 : e1 ∈ taskIds tasks)
    (hc0 : ∀ t, e0 ∈ childTasks tasks t → t ∉ visits (childTasks tasks) f e1)
    (hc1 : ∀ t, e1 ∈ childTasks tasks t → t ∉ visits (childTasks tasks) f e0) :
    ∀ x, x ∈ visits (childTasks tasks) f e0 →
      x ∈ visits (childTasks tasks) f e1 → False := by
  suffices H : ∀ n x, rank x = n → x ∈ visits (childTasks tasks) f e0 →
      x ∈ visits (childTasks tasks) f e1 → False by
    exact fun x h0 h1 => H (rank x) x rfl h0 h1
  intro n
  induction n using Nat.strong_induction_on with
  | _ n ihn =>
    intro x hrx hx0 hx1
    rcases visits_structure _ f e0 x hx0 with rfl | ⟨t0, ht0, hxt0⟩
    · rcases visits_structure _ f e1 x hx1 with h | ⟨t1, ht1, hxt1⟩
      · exact hne h
      · exact hc0 t1 hxt1 ht1
    · rcases visits_structure _ f e1 x hx1 with rfl | ⟨t1, ht1, hxt1⟩
      · exact hc1 t0 hxt0 ht0
      · have htt : t0 = t1 := unique_parent H1 hxt0 hxt1
        subst htt
        have ht0ids : t0 ∈ taskIds tasks :=
          (visits_rank_ge H2 f e0 he0 t0 ht0).2
        have hlt : rank t0 < rank x := child_rank H2 ht0ids hxt0
        exact ihn (rank t0) (by omega) t0 rfl ht0 ht1

theorem set_indent_correct {tasks : List (List String)} {rank : String → Nat}
    (H1 : (tasks.map taskIdF).Nodup)
    (H2 : ∀ r ∈ tasks, ∀ p ∈ tasks, parentIdF r ≠ "" → parentIdF r = taskIdF p →
      rank (taskIdF p) < rank (taskIdF r))
    (H3 : ∀ r ∈ tasks, rank (taskIdF r) < tasks.length) :
    ∀ (f : Nat) (tid : String) (level : Nat) (acc : List (String × Nat)),
      1 ≤ level → tid ∈ taskIds tasks → tasks.length + 1 ≤ f + rank tid →
      (lookupIndent (set_indent_level (childTasks tasks) f tid level acc) tid
        = some (min level 4)) ∧
      (∀ p c, p ∈ visits (childTasks tasks) f tid → c ∈ childTasks tasks p →
        ∃ l, 1 ≤ l ∧
          lookupIndent (set_indent_level (childTasks tasks) f tid level acc) p
            = some (min l 4) ∧
          lookupIndent (set_indent_level (childTasks tasks) f tid level acc) c
            = some (min (l + 1) 4)) := by
  intro f
  induction f using Nat.strong_induction_on with
  | _ f ihf =>
    intro tid level acc hlev htid hfuel
    have hrank_lt : ∀ x ∈ taskIds tasks, rank x < tasks.length := by
      intro x hx
      obtain ⟨q, hq, rfl⟩ := List.mem_map.mp hx
      exact H3 q hq
    have hf2 : 2 ≤ f := by
      have := hrank_lt tid htid
      omega
    obtain ⟨f', rfl⟩ : ∃ f', f = f' + 1 := ⟨f - 1, by omega⟩
    have hch_ids : ∀ c ∈ childTasks tasks tid, c ∈ taskIds tasks :=
      fun c hc => childTasks_sub_ids hc
    have hch_rank : ∀ c ∈ childTasks tasks tid, rank tid < rank c :=
      fun c hc => child_rank H2 htid hc
    have hch_fuel : ∀ c ∈ childTasks tasks tid,
        tasks.length + 1 ≤ f' + rank c := by
      intro c hc
      have := hch_rank c hc
      omega
    have htid_not_in_sub : ∀ c ∈ childTasks tasks tid,
        tid ∉ visits (childTasks tasks) f' c := by
      intro c hc hmem
      have h := (visits_rank_ge H2 f' c (hch_ids c hc) tid hmem).1
      have := hch_rank c hc
      omega
    rw [set_indent_level]
    have hconj1 : lookupIndent
        ((childTasks tasks tid).foldl
          (fun a c => set_indent_level (childTasks tasks) f' c (level + 1) a)
          (dinsert acc tid (min level 4))) tid = some (min level 4) := by
      rw [frame_fold _ _ _ _ _ _ htid_not_in_sub, lookup_dinsert, if_pos rfl]
    refine ⟨hconj1, ?_⟩
    intro p c hp hc
    rw [visits] at hp
    rcases List.mem_cons.mp hp with rfl | hpsub
    · refine ⟨level, hlev, hconj1, ?_⟩
      obtain ⟨cs1, cs2, hsplit⟩ := List.append_of_mem hc
      have hnodupch := childTasks_nodup H1 p
      rw [hsplit, List.foldl_append, List.foldl_cons]
      have hcnotin : ∀ c'' ∈ cs2, c ∉ visits (childTasks tasks) f' c'' := by
        intro c'' hc2 hmem
        have hc''mem : c'' ∈ childTasks tasks p := by rw [hsplit]; simp [hc2]
        have hcne : c ≠ c'' := by
          intro he
          subst he
          rw [hsplit] at hnodupch
          have hsub := List.Nodup.of_append_right hnodupch
          exact (List.nodup_cons.mp hsub).1 hc2
        rcases visits_structure _ f' c'' c hmem with he | ⟨t, ht, hct⟩
        · exact hcne he
        · have htp : t = p := unique_parent H1 hct hc
          subst htp
          have h := (visits_rank_ge H2 f' c'' (hch_ids c'' hc''mem) t ht).1
          have := hch_rank c'' hc''mem
          omega
      rw [frame_fold _ _ _ _ _ _ hcnotin]
      exact (ihf f' (by omega) c (level + 1) _ (by omega) (hch_ids c hc)
        (hch_fuel c hc)).1
    · obtain ⟨c0, hc0, hpv⟩ := List.mem_flatMap.mp hpsub
      obtain ⟨cs1, cs2, hsplit⟩ := List.append_of_mem hc0
      have hnodupch := childTasks_nodup H1 tid
      have hc0ids := hch_ids c0 hc0
      rw [hsplit, List.foldl_append, List.foldl_cons]
      obtain ⟨l, hl1, hlkp, hlkc⟩ :=
        (ihf f' (by omega) c0 (level + 1) _ (by omega) hc0ids
          (hch_fuel c0 hc0)).2 p c hpv hc
      have hpnotin : ∀ c'' ∈ cs2, p ∉ visits (childTasks tasks) f' c'' := by
        intro c'' hc2 hmem
        have hc''mem : c'' ∈ childTasks tasks tid := by rw [hsplit]; simp [hc2]
        have hc0ne : c0 ≠ c'' := by
          intro he
          subst he
          rw [hsplit] at hnodupch
          have hsub := List.Nodup.of_append_right hnodupch
          exact (List.nodup_cons.mp hsub).1 hc2
        refine visits_disjoint H1 H2 f' c0 c'' hc0ne hc0ids
          (hch_ids c'' hc''mem) ?_ ?_ p hpv hmem
        · intro t htc0 htmem
          have htt : t = tid := unique_parent H1 htc0 hc0
          subst htt
          have h := (visits_rank_ge H2 f' c'' (hch_ids c'' hc''mem) t htmem).1
          have := hch_rank c'' hc''mem
          omega
        · intro t htc'' htmem
          have htt : t = tid := unique_parent H1 htc'' hc''mem
          subst htt
          have h := (visits_rank_ge H2 f' c0 hc0ids t htmem).1
          have := hch_rank c0 hc0
          omega
      have hcnotin : ∀ c'' ∈ cs2, c ∉ visits (childTasks tasks) f' c'' := by
        intro c'' hc2 hmem
        have hc''mem : c'' ∈ childTasks tasks tid := by rw [hsplit]; simp [hc2]
        rcases visits_structure _ f' c'' c hmem with he | ⟨t, ht, hct⟩
        · subst he
          have hptid : p = tid := unique_parent H1 hc hc''mem
          subst hptid
          have h := (visits_rank_ge H2 f' c0 hc0ids p hpv).1
          have := hch_rank c0 hc0
          omega
        · have htp : t = p := unique_parent H1 hct hc
          subst htp
          exact hpnotin c'' hc2 ht
      exact ⟨l, hl1, by rw [frame_fold _ _ _ _ _ _ hpnotin]; exact hlkp,
        by rw [frame_fold _ _ _ _ _ _ hcnotin]; exact hlkc⟩

theorem set_indent_range (child : String → List String) :
    ∀ (f : Nat) (tid : String) (level : Nat) (acc : List (String × Nat)),
      1 ≤ level → (∀ k v, lookupIndent acc k = some v → 1 ≤ v ∧ v ≤ 4) →
      ∀ k v, lookupIndent (set_indent_level child f tid level acc) k = some v →
        1 ≤ v ∧ v ≤ 4 := by
  intro f
  induction f with
  | zero => intro tid level acc _ hacc k v h; exact hacc k v h
  | succ f ih =>
    intro tid level acc hlev hacc k v h
    rw [set_indent_level] at h
    suffices hfold : ∀ (cs : List String) (acc' : List (String × Nat)),
        (∀ k v, lookupIndent acc' k = some v → 1 ≤ v ∧ v ≤ 4) →
        ∀ k v, lookupIndent
          (cs.foldl (fun a c => set_indent_level child f c (level + 1) a) acc') k
          = some v → 1 ≤ v ∧ v ≤ 4 by
      refine hfold _ _ ?_ k v h
      intro k' v' h'
      rw [lookup_dinsert] at h'
      split at h'
      · injection h' with h''
        subst h''
        refine ⟨Nat.le_min.mpr ⟨hlev, by norm_num⟩, Nat.min_le_right _ _⟩
      · exact hacc k' v' h'
    intro cs
    induction cs with
    | nil => intro acc' hacc' k' v' h'; exact hacc' k' v' h'
    | cons c cs' ihc =>
      intro acc' hacc' k' v' h'
      rw [List.foldl_cons] at h'
      exact ihc _ (fun k2 v2 h2 =>
        ih c (level + 1) acc' (by omega) hacc' k2 v2 h2) k' v' h'

theorem fold_range (child : String → List String) (f level : Nat)
    (hlev : 1 ≤ level) : ∀ (rs : List String) (acc : List (String × Nat)),
    (∀ k v, lookupIndent acc k = some v → 1 ≤ v ∧ v ≤ 4) →
    ∀ k v, lookupIndent
      (rs.foldl (fun a r => set_indent_level child f r level a) acc) k = some v →
      1 ≤ v ∧ v ≤ 4 := by
  intro rs
  induction rs with
  | nil => intro acc hacc k v h; exact hacc k v h
  | cons r rs' ih =>
    intro acc hacc k v h
    rw [List.foldl_cons] at h
    exact ih _ (fun k2 v2 h2 =>
      set_indent_range child f r level acc hlev hacc k2 v2 h2) k v h

theorem fold_origin (child : String → List String) (f level : Nat) :
    ∀ (rs : List String) (acc : List (String × Nat)) (k : String) (v : Nat),
      lookupIndent (rs.foldl (fun a r => set_indent_level child f r level a) acc) k
        = some v →
      (∃ r0 ∈ rs, k ∈ visits child f r0) ∨ lookupIndent acc k = some v := by
  intro rs
  induction rs with
  | nil => intro acc k v h; exact Or.inr h
  | cons r rs' ih =>
    intro acc k v h
    rw [List.foldl_cons] at h
    rcases ih _ k v h with ⟨r0, h0, hm⟩ | h2
    · exact Or.inl ⟨r0, by simp [h0], hm⟩
    · by_cases hk : k ∈ visits child f r
      · exact Or.inl ⟨r, by simp, hk⟩
      · rw [frame_visits child f r level acc k hk] at h2
        exact Or.inr h2

/-- C8: for record sets with unique identifiers and acyclic parent references
(witnessed by a rank function that increases from parent to child and is
bounded by the record count), the computed hierarchy index gives every root
record indent level 1; gives any record whose parent record is present and
assigned level `lp` the level `min (lp + 1) 4`; and assigns only levels in
`[1, 4]`. -/
theorem c8_hierarchy_invariants (tasks : List (List String)) (rank : String → Nat)
    (H1 : (tasks.map taskIdF).Nodup)
    (H2 : ∀ r ∈ tasks, ∀ p ∈ tasks, parentIdF r ≠ "" → parentIdF r = taskIdF p →
      rank (taskIdF p) < rank (taskIdF r))
    (H3 : ∀ r ∈ tasks, rank (taskIdF r) < tasks.length) :
    (∀ r ∈ tasks, parentIdF r = "" →
      lookupIndent (calculate_indents tasks) (taskIdF r) = some 1) ∧
    (∀ r ∈ tasks, ∀ p ∈ tasks, parentIdF r ≠ "" → parentIdF r = taskIdF p →
      ∀ lp, lookupIndent (calculate_indents tasks) (taskIdF p) = some lp →
        lookupIndent (calculate_indents tasks) (taskIdF r) = some (min (lp + 1) 4)) ∧
    (∀ k v, lookupIndent (calculate_indents tasks) k = some v → 1 ≤ v ∧ v ≤ 4) := by
  refine ⟨?_, ?_, ?_⟩
  · intro r hr hroot
    have hrid : taskIdF r ∈ rootTaskIds tasks :=
      mem_rootTaskIds.mpr ⟨r, hr, hroot, rfl⟩
    have hr0ids : taskIdF r ∈ taskIds tasks := rootTaskIds_sub_ids hrid
    unfold calculate_indents
    obtain ⟨l1, l2, hsplit⟩ := List.append_of_mem hrid
    have hnodup := rootTaskIds_nodup H1
    rw [hsplit, List.foldl_append, List.foldl_cons]
    have hnotin : ∀ r'' ∈ l2,
        taskIdF r ∉ visits (childTasks tasks) (tasks.length + 1) r'' := by
      intro r'' h2 hmem
      have hrne : taskIdF r ≠ r'' := by
        intro he
        rw [hsplit] at hnodup
        have hsub := List.Nodup.of_append_right hnodup
        rw [← he] at h2
        exact (List.nodup_cons.mp hsub).1 h2
      rcases visits_structure _ _ r'' _ hmem with he | ⟨t, ht, hct⟩
      · exact hrne he
      · exact root_not_child H1 hrid hct
    rw [frame_fold _ _ _ _ _ _ hnotin]
    have hmain := (set_indent_correct H1 H2 H3 (tasks.length + 1) (taskIdF r) 1
      (List.foldl (fun a r'' =>
        set_indent_level (childTasks tasks) (tasks.length + 1) r'' 1 a) [] l1)
      (by omega) hr0ids (by omega)).1
    rw [hmain]
    rfl
  · intro r hr p hp hpne hpp lp hlp
    have hc : taskIdF r ∈ childTasks tasks (taskIdF p) :=
      mem_childTasks.mpr ⟨r, hr, hpne, hpp, rfl⟩
    unfold calculate_indents at hlp ⊢
    rcases fold_origin _ _ _ (rootTaskIds tasks) [] (taskIdF p) lp hlp with
      ⟨r0, hr0, hpvis⟩ | habs
    · obtain ⟨l1, l2, hsplit⟩ := List.append_of_mem hr0
      have hnodup := rootTaskIds_nodup H1
      have hr0ids : r0 ∈ taskIds tasks := rootTaskIds_sub_ids hr0
      rw [hsplit, List.foldl_append, List.foldl_cons] at hlp ⊢
      obtain ⟨l, hl1, hlkp, hlkc⟩ :=
        (set_indent_correct H1 H2 H3 (tasks.length + 1) r0 1
          (List.foldl (fun a r'' =>
            set_indent_level (childTasks tasks) (tasks.length + 1) r'' 1 a) [] l1)
          (by omega) hr0ids (by omega)).2 (taskIdF p) (taskIdF r) hpvis hc
      have hpnotin : ∀ r'' ∈ l2,
          taskIdF p ∉ visits (childTasks tasks) (tasks.length + 1) r'' := by
        intro r'' h2 hmem
        have hr''root : r'' ∈ rootTaskIds tasks := by rw [hsplit]; simp [h2]
        have hne : r0 ≠ r'' := by
          intro he
          rw [hsplit] at hnodup
          have hsub := List.Nodup.of_append_right hnodup
          rw [← he] at h2
          exact (List.nodup_cons.mp hsub).1 h2
        refine visits_disjoint H1 H2 _ r0 r'' hne hr0ids
          (rootTaskIds_sub_ids hr''root) ?_ ?_ (taskIdF p) hpvis hmem
        · intro t htc _
          exact (root_not_child H1 hr0 htc).elim
        · intro t htc _
          exact (root_not_child H1 hr''root htc).elim
      have hcnotin : ∀ r'' ∈ l2,
          taskIdF r ∉ visits (childTasks tasks) (tasks.length + 1) r'' := by
        intro r'' h2 hmem
        have hr''root : r'' ∈ rootTaskIds tasks := by rw [hsplit]; simp [h2]
        rcases visits_structure _ _ r'' _ hmem with he | ⟨t, ht, hct⟩
        · rw [← he] at hr''root
          exact root_not_child H1 hr''root hc
        · have htp : t = taskIdF p := unique_parent H1 hct hc
          subst htp
          exact hpnotin r'' h2 ht
      rw [frame_fold _ _ _ _ _ _ hpnotin] at hlp
      rw [frame_fold _ _ _ _ _ _ hcnotin]
      rw [hlkp] at hlp
      injection hlp with hlp'
      rw [hlkc]
      congr 1
      omega
    · rw [show lookupIndent [] (taskIdF p) = none from rfl] at habs
      exact absurd habs (by simp)
  · intro k v h
    unfold calculate_indents at h
    exact fold_range _ _ _ (by omega) (rootTaskIds tasks) []
      (by intro k' v' h'; rw [show lookupIndent [] k' = none from rfl] at h'; simp at h')
      k v h

/-- A child record: identifier `b`, parent `a`. -/
def childRec : List String :=
  ["", "L", "Child", "", "", "", "", "", "", "", "", "0", "0",
   "", "", "", "", "", "", "", "", "", "b", "a"]

theorem c8_hierarchy_invariants_witness :
    lookupIndent (calculate_indents [sampleTask, childRec]) (taskIdF sampleTask)
      = some 1 :=
  (c8_hierarchy_invariants [sampleTask, childRec]
    (fun s => if s = "a" then 0 else 1)
    (by decide) (by decide) (by decide)).1 sampleTask (by simp) (by rfl)

/-- C2 amended: a record whose non-empty parent identifier matches no record's
own identifier is never visited by the indent computation, hence absent from
the hierarchy index, and the conversion run aborts at the hierarchy-ordering
step with the unknown-identifier error. -/
theorem c2_orphan_dropped (tasks : List (List String)) (r : List String)
    (H1 : (tasks.map taskIdF).Nodup) (hr : r ∈ tasks)
    (hp : parentIdF r ≠ "") (hmiss : parentIdF r ∉ taskIds tasks) :
    lookupIndent (calculate_indents tasks) (taskIdF r) = none ∧
    ∀ ip, convert TICKTICK_HEADER tasks ip = .error .unknownTaskId := by
  have hlook : lookupIndent (calculate_indents tasks) (taskIdF r) = none := by
    have hS : ∀ x, (x ∈ taskIds tasks ∧ x ≠ taskIdF r) →
        ∀ c ∈ childTasks tasks x, c ∈ taskIds tasks ∧ c ≠ taskIdF r := by
      intro x hx c hc
      refine ⟨childTasks_sub_ids hc, ?_⟩
      intro he
      subst he
      obtain ⟨q, hq, hq1, hq2, hq3⟩ := mem_childTasks.mp hc
      have hqr : q = r := records_unique H1 q hq r hr hq3
      subst hqr
      rw [← hq2] at hx
      exact hmiss hx.1
    have hnotvisit : ∀ root ∈ rootTaskIds tasks,
        taskIdF r ∉ visits (childTasks tasks) (tasks.length + 1) root := by
      intro root hroot hmem
      have hrootS : root ∈ taskIds tasks ∧ root ≠ taskIdF r := by
        refine ⟨rootTaskIds_sub_ids hroot, ?_⟩
        intro he
        obtain ⟨q, hq, hq1, hq2⟩ := mem_rootTaskIds.mp hroot
        have hqr : q = r := records_unique H1 q hq r hr (by rw [hq2, he])
        subst hqr
        exact hp hq1
      have hin := visits_subset (childTasks tasks)
        (fun x => x ∈ taskIds tasks ∧ x ≠ taskIdF r) hS _ root hrootS _ hmem
      exact hin.2 rfl
    unfold calculate_indents
    rw [frame_fold _ _ _ _ _ _ hnotvisit]
    rfl
  refine ⟨hlook, ?_⟩
  intro ip
  unfold convert
  rw [if_neg (by simp)]
  have hall : ¬((tasks.all fun t => (indentKeys tasks).contains (taskIdF t)) = true) := by
    intro hall
    have hcon := List.all_eq_true.mp hall r hr
    have hmem : taskIdF r ∈ indentKeys tasks := by simpa using hcon
    rw [lookup_none_iff] at hlook
    exact hlook hmem
  rw [if_neg hall]

theorem c2_orphan_dropped_witness :
    lookupIndent (calculate_indents [orphanTask]) (taskIdF orphanTask) = none ∧
    convert TICKTICK_HEADER [orphanTask] true = .error .unknownTaskId :=
  ⟨(c2_orphan_dropped [orphanTask] orphanTask (by decide) (by simp)
      (by decide) (by decide)).1,
   (c2_orphan_dropped [orphanTask] orphanTask (by decide) (by simp)
      (by decide) (by decide)).2 true⟩

end TickTickToTodoist
